import Mathlib

/-!
# SlotMap: a fixed-capacity generational slot map

Shallow embedding of `vecs::SlotMap<T, Capacity, TIndex>`
(`vecs/data_structures/slotmap.hpp`).

* `cap` is the template parameter `Capacity`; a `std::array<_, Capacity>` is a
  function `Fin cap → _`, so every array access carries its bounds check.
* `w` is the bit width of `TIndex` (`index_t`, `gen_t`); values of that type are
  natural numbers and the arithmetic of the source is written with an explicit
  `% 2 ^ w`.  `_size - 1` is computed in `index_t` (no integer promotion, as for
  the default `uint64_t`); for an index type narrower than `int` the promoted
  value differs only when `_size` is 0.
* A member function is a function from the state before the call to an
  `Outcome`: a normal return with the state after the call, a thrown
  `std::runtime_error` with the state at the throw, or undefined behaviour
  (an array access outside `[0, Capacity)` or a failed `assert`).
-/

set_option autoImplicit false
set_option maxRecDepth 1000000

namespace vecs

/-- The type `key_t`: `struct { index_t id; gen_t generation; }`. -/
structure Key where
  id : Nat
  generation : Nat
deriving DecidableEq, Repr

/-- The data members of `SlotMap` (the debug tags carry no state). -/
structure SlotMap (T : Type) (cap : Nat) where
  _size : Nat
  _freelist : Nat
  _generation : Nat
  _indices : Fin cap → Key
  _data : Fin cap → T
  _erase : Fin cap → Nat

/-- How a call of a member function ends. -/
inductive Outcome (σ α : Type) where
  | ret (s : σ) (a : α)
  | thrown (s : σ)
  | undefined

namespace SlotMap

variable {T : Type} {cap : Nat}

/-- The loop of `_init_freelist` after its first `n` iterations:
`_indices[i].id = i + 1` for `i = 0, ..., n - 1`. -/
def _init_freelist_loop (w : Nat) (ind : Fin cap → Key) : Nat → Fin cap → Key
  | 0 => ind
  | n + 1 =>
    let prev := _init_freelist_loop w ind n
    if h : n < cap then
      Function.update prev ⟨n, h⟩ { prev ⟨n, h⟩ with id := (n + 1) % 2 ^ w }
    else prev

/-- The function `_init_freelist`: the loop runs over `i < Capacity` (it ends because
`Capacity` is a value of `index_t`), then `_freelist = 0`. -/
def _init_freelist (w : Nat) (m : SlotMap T cap) : SlotMap T cap :=
  { m with _indices := _init_freelist_loop w m._indices cap, _freelist := 0 }

/-- The member `clear()`: `_init_freelist();`. -/
def clear (w : Nat) (m : SlotMap T cap) : SlotMap T cap :=
  _init_freelist w m

/-- The state of the members before the constructor body runs: every member is
value-initialised (`_size{}`, `_indices{}`, `_data{}`, ...). -/
def zeroed (T : Type) [Inhabited T] (cap : Nat) : SlotMap T cap :=
  { _size := 0, _freelist := 0, _generation := 0,
    _indices := fun _ => ⟨0, 0⟩, _data := fun _ => default, _erase := fun _ => 0 }

/-- The constructor `SlotMap()`: `clear();` on the value-initialised members. -/
def fresh (T : Type) [Inhabited T] (cap w : Nat) : SlotMap T cap :=
  clear w (zeroed T cap)

/-- The member `size()`. -/
def size (m : SlotMap T cap) : Nat := m._size

/-- The member `is_key_valid(key)`. -/
def is_key_valid (m : SlotMap T cap) (key : Key) : Bool :=
  if h : key.id < cap then
    if key.generation ≠ (m._indices ⟨key.id, h⟩).generation then false else true
  else false

/-- The member `_allocate_slot()`; returns the reserved slot id. -/
def _allocate_slot (w : Nat) (m : SlotMap T cap) : Outcome (SlotMap T cap) Nat :=
  if cap ≤ m._size then .thrown m
  else if h : m._freelist < cap then
    let slot_id := m._freelist
    let m1 := { m with _freelist := (m._indices ⟨slot_id, h⟩).id }
    let m2 := { m1 with
      _indices := Function.update m1._indices ⟨slot_id, h⟩ ⟨m1._size, m1._generation⟩ }
    .ret { m2 with _size := (m2._size + 1) % 2 ^ w,
                   _generation := (m2._generation + 1) % 2 ^ w } slot_id
  else .undefined

/-- The member `push_back(T&& value)`. -/
def push_back (w : Nat) (m : SlotMap T cap) (value : T) : Outcome (SlotMap T cap) Key :=
  match _allocate_slot w m with
  | .undefined => .undefined
  | .thrown s => .thrown s
  | .ret m1 reserved_slot_id =>
    if hr : reserved_slot_id < cap then
      let slot := m1._indices ⟨reserved_slot_id, hr⟩
      if hs : slot.id < cap then
        let m2 := { m1 with _data := Function.update m1._data ⟨slot.id, hs⟩ value }
        let m3 := { m2 with
          _erase := Function.update m2._erase ⟨slot.id, hs⟩ reserved_slot_id }
        .ret m3 { id := reserved_slot_id, generation := slot.generation }
      else .undefined
    else .undefined

/-- The member `_free_slot(key)`. -/
def _free_slot (w : Nat) (m : SlotMap T cap) (key : Key) : Outcome (SlotMap T cap) Unit :=
  if is_key_valid m key = false then .undefined
  else if hk : key.id < cap then
    let data_id := (m._indices ⟨key.id, hk⟩).id
    let m1 := { m with
      _indices := Function.update m._indices ⟨key.id, hk⟩ ⟨m._freelist, m._generation⟩ }
    let m2 := { m1 with _freelist := key.id }
    let last := (m2._size + 2 ^ w - 1) % 2 ^ w
    if data_id ≠ last then
      if hd : data_id < cap then
        if hl : last < cap then
          let m3 := { m2 with _data := Function.update m2._data ⟨data_id, hd⟩ (m2._data ⟨last, hl⟩) }
          let m4 := { m3 with
            _erase := Function.update m3._erase ⟨data_id, hd⟩ (m3._erase ⟨last, hl⟩) }
          let moved := m4._erase ⟨data_id, hd⟩
          if hm : moved < cap then
            let m5 := { m4 with
              _indices := Function.update m4._indices ⟨moved, hm⟩
                { m4._indices ⟨moved, hm⟩ with id := data_id } }
            .ret { m5 with _size := last, _generation := (m5._generation + 1) % 2 ^ w } ()
          else .undefined
        else .undefined
      else .undefined
    else
      .ret { m2 with _size := last, _generation := (m2._generation + 1) % 2 ^ w } ()
  else .undefined

/-- The member `erase(key)`. -/
def erase (w : Nat) (m : SlotMap T cap) (key : Key) : Outcome (SlotMap T cap) Bool :=
  if is_key_valid m key = false then .ret m false
  else
    match _free_slot w m key with
    | .ret m1 _ => .ret m1 true
    | .thrown s => .thrown s
    | .undefined => .undefined

/-- The value a key resolves to, `_data[_indices[key.id].id]`; the source has no
lookup member, the expression is the one the specification names. -/
def resolve (m : SlotMap T cap) (key : Key) : Option T :=
  if h : key.id < cap then
    if hp : (m._indices ⟨key.id, h⟩).id < cap then
      some (m._data ⟨(m._indices ⟨key.id, h⟩).id, hp⟩)
    else none
  else none

end SlotMap

/-! ## Runs of the public interface -/

/-- The value a call returned, if it returned. -/
def Outcome.val? {σ α : Type} : Outcome σ α → Option α
  | .ret _ a => some a
  | _ => none

/-- The state a call left behind (at the return or at the throw); `d` when the call
was undefined. -/
def Outcome.stateD {σ α : Type} (d : σ) : Outcome σ α → σ
  | .ret s _ => s
  | .thrown s => s
  | .undefined => d

/-- The call ended in undefined behaviour. -/
def Outcome.isUndefined {σ α : Type} : Outcome σ α → Bool
  | .undefined => true
  | _ => false

/-- A call of one of the two mutating members. -/
inductive Op (T : Type) where
  | push (v : T)
  | erase (k : Key)

/-- A map together with the history of the run that produced it: the keys
`push_back` returned (latest first), the keys whose `erase` returned `true`, and the
number of times `_generation` was incremented. -/
structure RunState (T : Type) (cap : Nat) where
  map : SlotMap T cap
  issued : List Key
  erased : List Key
  bumps : Nat

namespace RunState

variable {T : Type} {cap : Nat}

/-- The start of every run: the freshly constructed map. -/
def init (T : Type) [Inhabited T] (cap w : Nat) : RunState T cap :=
  ⟨SlotMap.fresh T cap w, [], [], 0⟩

/-- The keys returned by `push_back` and not yet erased. -/
def liveKeys (t : RunState T cap) : List Key :=
  t.issued.filter fun k => decide (k ∉ t.erased)

/-- One call on the map of `t`; `erase` is only called on keys that `push_back`
returned. `none` when the call is not allowed or is undefined. -/
def step (w : Nat) (t : RunState T cap) : Op T → Option (RunState T cap)
  | .push v =>
    match SlotMap.push_back w t.map v with
    | .ret m k => some ⟨m, k :: t.issued, t.erased, t.bumps + 1⟩
    | .thrown m => some { t with map := m }
    | .undefined => none
  | .erase k =>
    if k ∈ t.issued then
      match SlotMap.erase w t.map k with
      | .ret m true => some ⟨m, t.issued, k :: t.erased, t.bumps + 1⟩
      | .ret m false => some { t with map := m }
      | _ => none
    else none

/-- A sequence of calls, from left to right. -/
def exec (w : Nat) : List (Op T) → RunState T cap → Option (RunState T cap)
  | [], t => some t
  | op :: ops, t => (step w t op).bind (exec w ops)

end RunState

/-- The states reached from a fresh map by `push_back` and by `erase` of keys returned
by `push_back`. -/
inductive Run (T : Type) [Inhabited T] (cap w : Nat) : RunState T cap → Prop where
  | fresh : Run T cap w (RunState.init T cap w)
  | push_ok {t : RunState T cap} {v : T} {m : SlotMap T cap} {k : Key} :
      Run T cap w t → SlotMap.push_back w t.map v = .ret m k →
      Run T cap w ⟨m, k :: t.issued, t.erased, t.bumps + 1⟩
  | push_thrown {t : RunState T cap} {v : T} {m : SlotMap T cap} :
      Run T cap w t → SlotMap.push_back w t.map v = .thrown m →
      Run T cap w { t with map := m }
  | erase_true {t : RunState T cap} {k : Key} {m : SlotMap T cap} :
      Run T cap w t → k ∈ t.issued → SlotMap.erase w t.map k = .ret m true →
      Run T cap w ⟨m, t.issued, k :: t.erased, t.bumps + 1⟩
  | erase_false {t : RunState T cap} {k : Key} {m : SlotMap T cap} :
      Run T cap w t → k ∈ t.issued → SlotMap.erase w t.map k = .ret m false →
      Run T cap w { t with map := m }

/-- The states reached from a fresh map by the public members called with arbitrary
arguments (`is_key_valid` and `size` are `const` and reach nothing new), with the
number of increments of `_generation` so far. -/
inductive ApiReach (T : Type) [Inhabited T] (cap w : Nat) : SlotMap T cap → Nat → Prop where
  | fresh : ApiReach T cap w (SlotMap.fresh T cap w) 0
  | push_ok {m m1 : SlotMap T cap} {b : Nat} {v : T} {k : Key} :
      ApiReach T cap w m b → SlotMap.push_back w m v = .ret m1 k →
      ApiReach T cap w m1 (b + 1)
  | push_thrown {m m1 : SlotMap T cap} {b : Nat} {v : T} :
      ApiReach T cap w m b → SlotMap.push_back w m v = .thrown m1 →
      ApiReach T cap w m1 b
  | erase_true {m m1 : SlotMap T cap} {b : Nat} {k : Key} :
      ApiReach T cap w m b → SlotMap.erase w m k = .ret m1 true →
      ApiReach T cap w m1 (b + 1)
  | erase_false {m m1 : SlotMap T cap} {b : Nat} {k : Key} :
      ApiReach T cap w m b → SlotMap.erase w m k = .ret m1 false →
      ApiReach T cap w m1 b
  | clear {m : SlotMap T cap} {b : Nat} :
      ApiReach T cap w m b → ApiReach T cap w (SlotMap.clear w m) b

namespace SlotMap

variable {T : Type} {cap : Nat}

/-- Consecutive `push_back` calls that all succeed, with the keys they return. -/
def pushAll (w : Nat) : SlotMap T cap → List T → Option (SlotMap T cap × List Key)
  | m, [] => some (m, [])
  | m, v :: vs =>
    match push_back w m v with
    | .ret m1 k => (pushAll w m1 vs).map fun r => (r.1, k :: r.2)
    | _ => none

/-- Consecutive `push_back` calls, each one successful (`some key`) or failed with the
capacity error (`none`), with the map left at the end. -/
def pushSeq (w : Nat) : SlotMap T cap → List T → Option (SlotMap T cap × List (Option Key))
  | m, [] => some (m, [])
  | m, v :: vs =>
    match push_back w m v with
    | .ret m1 k => (pushSeq w m1 vs).map fun r => (r.1, some k :: r.2)
    | .thrown m1 => (pushSeq w m1 vs).map fun r => (r.1, none :: r.2)
    | .undefined => none

/-- The elements `f[0], ..., f[n - 1]` of an array, in this order. -/
def firstN (f : Fin cap → T) : Nat → List T
  | 0 => []
  | n + 1 => firstN f n ++ (if h : n < cap then [f ⟨n, h⟩] else [])

/-- What iteration from `begin()` to `end()` yields: `_data[0 .. _size)`. -/
def values (m : SlotMap T cap) : List T :=
  firstN m._data m._size

/-- The dense part is packed in slot order and the free list links the remaining
slots in index order: `_freelist == _size` and `_indices[i].id == i + 1` from `_size`
on. This is the shape `_init_freelist` leaves when `_size` is 0. -/
def Packed (m : SlotMap T cap) : Prop :=
  m._size ≤ cap ∧ m._freelist = m._size ∧
    ∀ i : Fin cap, m._size ≤ i.val → (m._indices i).id = i.val + 1

/-- Slot `s` of the indirection table owns a dense position `p`: its `id` is `p`, below
`_size`, and the reverse map at `p` points back at `s`. -/
def Live (m : SlotMap T cap) (s : Fin cap) : Prop :=
  ∃ p : Fin cap, p.val = (m._indices s).id ∧ p.val < m._size ∧ m._erase p = s.val

/-- The slots `l` are linked from `head` through the `id` field of the indirection
table, and the link of the last one is the sentinel `Capacity`. -/
def FreeChain (m : SlotMap T cap) : List (Fin cap) → Nat → Prop
  | [], head => head = cap
  | s :: l, head => head = s.val ∧ FreeChain m l (m._indices s).id

end SlotMap

/-- The representation invariant of a run whose generation counter has not wrapped. -/
structure RunInv {T : Type} {cap : Nat} (t : RunState T cap) : Prop where
  gen_eq : t.map._generation = t.bumps
  size_le : t.map._size ≤ cap
  size_eq : t.map._size + t.erased.length = t.issued.length
  dense : ∀ p : Fin cap, p.val < t.map._size →
    ∃ s : Fin cap, s.val = t.map._erase p ∧ (t.map._indices s).id = p.val
  free : ∃ fl : List (Fin cap), SlotMap.FreeChain t.map fl t.map._freelist ∧ fl.Nodup ∧
    (∀ s, s ∈ fl ↔ ¬ SlotMap.Live t.map s) ∧ fl.length + t.map._size = cap
  issued_gen : ∀ k ∈ t.issued, k.generation < t.bumps
  erased_sub : ∀ k ∈ t.erased, k ∈ t.issued
  erased_stale : ∀ k ∈ t.erased, SlotMap.is_key_valid t.map k = false
  live_key : ∀ k ∈ t.issued, k ∉ t.erased →
    ∃ s : Fin cap, s.val = k.id ∧ SlotMap.Live t.map s ∧
      (t.map._indices s).generation = k.generation
  live_slot : ∀ s : Fin cap, SlotMap.Live t.map s →
    ∃ k ∈ t.issued, k ∉ t.erased ∧ k.id = s.val

/-! ## The line count of the memory viewer -/

/-- The function `get_needed_display_lines(size, width)` of `utils/memory_printer.hpp`, in
`size_t`. `none` is the division by zero; `lines + 1` cannot overflow, because a remainder
means `width >= 2`. -/
def get_needed_display_lines (size width : Nat) : Option Nat :=
  if width = 0 then none
  else
    let lines := size / width
    if size % width ≠ 0 then some (lines + 1) else some lines

namespace MemoryViewer

/-- The member `MemoryViewer::_get_needed_display_lines(size, width)` of
`utils/memory_viewer.hpp`; the same body as the free function. -/
def _get_needed_display_lines (size width : Nat) : Option Nat :=
  if width = 0 then none
  else
    let lines := size / width
    if size % width ≠ 0 then some (lines + 1) else some lines

/-- The expression of the comment that ends `_get_needed_display_lines`:
`(size * width - 1) / width`, read without overflow. -/
def commentFormula (size width : Nat) : Option Nat :=
  if width = 0 then none else some ((size * width - 1) / width)

end MemoryViewer

/-! ## Concrete maps and runs used below -/

namespace Examples

open SlotMap

/-- A map of capacity 1 after one successful `push_back`: it is full. -/
def fullMap : SlotMap Nat 1 :=
  (push_back 64 (fresh Nat 1 64) 5).stateD (fresh Nat 1 64)

/-- A map of capacity 10 after one successful `push_back`. -/
def onePushed : SlotMap Nat 10 :=
  (push_back 64 (fresh Nat 10 64) 7).stateD (fresh Nat 10 64)

/-- A run on a map of capacity 4: three insertions, the first key erased, and a fourth
insertion that takes over the freed slot 0. -/
def demoOps : List (Op Nat) :=
  [.push 10, .push 20, .push 30, .erase ⟨0, 0⟩, .push 40]

/-- The state after `demoOps`. -/
def demo : RunState Nat 4 :=
  (RunState.exec 64 demoOps (RunState.init Nat 4 64)).getD (RunState.init Nat 4 64)

/-- `n` rounds of `push_back` followed by `erase` of the key just returned, which is
`{slot, g}`, then `{slot, g + 2}`, and so on. -/
def churnOps (slot : Nat) : Nat → Nat → List (Op Nat)
  | 0, _ => []
  | n + 1, g => .push 7 :: .erase ⟨slot, g⟩ :: churnOps slot n (g + 2)

/-- With an 8-bit index type and capacity 4: two insertions, erase of the first key
`{0, 0}`, then 127 rounds on slot 0 with the keys `{0, 3}`, `{0, 5}`, ..., `{0, 255}`.
The last `erase` happens at generation 256 = 0 and stamps slot 0 with 0. In this run
and in the runs that extend it every `erase` is called with `_size >= 1`. -/
def wrapOps : List (Op Nat) :=
  [.push 1, .push 2, .erase ⟨0, 0⟩] ++ churnOps 0 127 3

/-- After `wrapOps`: slot 0 is free and the erased key `{0, 3}` matches again once slot 0
is stamped with 3. The run goes on: two insertions (keys `{0, 1}`, `{2, 2}`), erase of
`{0, 1}` (stamping slot 0 with 3), erase of `{0, 3}` (a second release of slot 0), two
insertions (both into slot 0, keys `{0, 5}` and `{0, 6}`), erase of `{2, 2}`. -/
def swapOps : List (Op Nat) :=
  wrapOps ++ [.push 11, .push 12, .erase ⟨0, 1⟩, .erase ⟨0, 3⟩, .push 14, .push 15,
    .erase ⟨2, 2⟩]

/-- The state after `swapOps`. -/
def swapState : RunState Nat 4 :=
  (RunState.exec 8 swapOps (RunState.init Nat 4 8)).getD (RunState.init Nat 4 8)

/-- The map after `erase({1, 1})` on `swapState`. -/
def swapMap1 : SlotMap Nat 4 :=
  (erase 8 swapState.map ⟨1, 1⟩).stateD swapState.map

/-- After `wrapOps` the erased key `{0, 0}` matches the free slot 0 again; the run goes
on with a second erase of `{0, 0}` and one insertion, which returns `{0, 2}`. -/
def stableOps : List (Op Nat) :=
  wrapOps ++ [.erase ⟨0, 0⟩, .push 21]

/-- The state after `stableOps`. -/
def stableState : RunState Nat 4 :=
  (RunState.exec 8 stableOps (RunState.init Nat 4 8)).getD (RunState.init Nat 4 8)

/-- The map after `push_back(22)` on `stableState`. -/
def stableMap1 : SlotMap Nat 4 :=
  (push_back 8 stableState.map 22).stateD stableState.map

/-- With an 8-bit index type and capacity 3: two insertions (keys `{0, 0}`, `{1, 1}`), then
127 rounds on slot 2 with the keys `{2, 2}`, `{2, 4}`, ..., `{2, 254}`: 256 increments of
the generation counter, which is 0 again while `{0, 0}` is live. -/
def twiceOps : List (Op Nat) :=
  [.push 1, .push 2] ++ churnOps 2 127 2

/-- The state after `twiceOps`. -/
def twiceState : RunState Nat 3 :=
  (RunState.exec 8 twiceOps (RunState.init Nat 3 8)).getD (RunState.init Nat 3 8)

/-- The map after `erase({0, 0})` on `twiceState`. -/
def twiceMap1 : SlotMap Nat 3 :=
  (erase 8 twiceState.map ⟨0, 0⟩).stateD twiceState.map

/-- The map after a second `erase({0, 0})`. -/
def twiceMap2 : SlotMap Nat 3 :=
  (erase 8 twiceMap1 ⟨0, 0⟩).stateD twiceMap1

/-- The map after `erase({1, 1})` on `demo`. -/
def demoErased : SlotMap Nat 4 :=
  (erase 64 demo.map ⟨1, 1⟩).stateD demo.map

/-- After `wrapOps` and a second erase of `{0, 0}`: the map is empty by `_size` while the
key `{1, 1}` was never erased. -/
def denseOps : List (Op Nat) :=
  wrapOps ++ [.erase ⟨0, 0⟩]

/-- The state after `denseOps`. -/
def denseState : RunState Nat 4 :=
  (RunState.exec 8 denseOps (RunState.init Nat 4 8)).getD (RunState.init Nat 4 8)

/-- After `stableOps` one more insertion, which takes slot 0 again and returns
`{0, 3}`. -/
def staleOps : List (Op Nat) :=
  stableOps ++ [.push 22]

/-- The state after `staleOps`. -/
def staleState : RunState Nat 4 :=
  (RunState.exec 8 staleOps (RunState.init Nat 4 8)).getD (RunState.init Nat 4 8)

/-- Capacity 10: the five elements `A` to `E` are inserted, with the keys `{0, 0}` to
`{4, 4}`. -/
def abcdeOps : List (Op Char) :=
  [.push 'A', .push 'B', .push 'C', .push 'D', .push 'E']

/-- The state after `abcdeOps`. -/
def abcde : RunState Char 10 :=
  (RunState.exec 64 abcdeOps (RunState.init Char 10 64)).getD (RunState.init Char 10 64)

/-- The map after `erase({2, 2})`, the key of `C`, on `abcde`. -/
def abcdeErased : SlotMap Char 10 :=
  (erase 64 abcde.map ⟨2, 2⟩).stateD abcde.map

/-- Capacity 4: one insertion and the erase of its key; the map is empty and the
generation counter is 2. -/
def emptiedOps : List (Op Nat) :=
  [.push 7, .erase ⟨0, 0⟩]

/-- The state after `emptiedOps`. -/
def emptied : RunState Nat 4 :=
  (RunState.exec 64 emptiedOps (RunState.init Nat 4 64)).getD (RunState.init Nat 4 64)

/-- With an 8-bit index type and capacity 1: 128 rounds of insertion and erase on slot 0
with the keys `{0, 0}`, `{0, 2}`, ..., `{0, 254}`; the generation counter is incremented
256 times and is 0 again. -/
def collideOps : List (Op Nat) :=
  churnOps 0 128 0

/-- The state after `collideOps`. -/
def collideState : RunState Nat 1 :=
  (RunState.exec 8 collideOps (RunState.init Nat 1 8)).getD (RunState.init Nat 1 8)

/-- The map after `push_back(9)` on `collideState`. -/
def collideMap1 : SlotMap Nat 1 :=
  (push_back 8 collideState.map 9).stateD collideState.map

end Examples

/-! ## The members, call by call -/

namespace SlotMap

variable {T : Type} {cap : Nat}

theorem allocate_slot_full (w : Nat) (m : SlotMap T cap) (h : cap ≤ m._size) :
    _allocate_slot w m = .thrown m := by
  simp [_allocate_slot, h]

theorem push_back_eq_thrown (w : Nat) (m : SlotMap T cap) (v : T) (h : cap ≤ m._size) :
    push_back w m v = .thrown m := by
  simp [push_back, allocate_slot_full w m h]

theorem erase_eq_ret_false (w : Nat) (m : SlotMap T cap) (k : Key)
    (h : is_key_valid m k = false) : erase w m k = .ret m false := by
  simp [erase, h]

theorem is_key_valid_out_of_range (m : SlotMap T cap) (k : Key) (h : cap ≤ k.id) :
    is_key_valid m k = false := by
  simp [is_key_valid, Nat.not_lt.mpr h]

theorem clear_size (w : Nat) (m : SlotMap T cap) : (clear w m)._size = m._size := rfl

theorem push_back_eq_ret (w : Nat) (m : SlotMap T cap) (v : T) (hs : m._size < cap)
    (hf : m._freelist < cap) :
    push_back w m v = .ret
      { _size := (m._size + 1) % 2 ^ w
        _freelist := (m._indices ⟨m._freelist, hf⟩).id
        _generation := (m._generation + 1) % 2 ^ w
        _indices := Function.update m._indices ⟨m._freelist, hf⟩ ⟨m._size, m._generation⟩
        _data := Function.update m._data ⟨m._size, hs⟩ v
        _erase := Function.update m._erase ⟨m._size, hs⟩ m._freelist }
      ⟨m._freelist, m._generation⟩ := by
  simp [push_back, _allocate_slot, Nat.not_le.mpr hs, hf, hs]

theorem push_back_eq_undefined (w : Nat) (m : SlotMap T cap) (v : T) (hs : m._size < cap)
    (hf : ¬ m._freelist < cap) : push_back w m v = .undefined := by
  simp [push_back, _allocate_slot, Nat.not_le.mpr hs, hf]

theorem push_back_thrown_inv {w : Nat} {m m1 : SlotMap T cap} {v : T}
    (h : push_back w m v = .thrown m1) : m1 = m ∧ cap ≤ m._size := by
  by_cases hs : cap ≤ m._size
  · rw [push_back_eq_thrown w m v hs] at h
    injection h with h
    exact ⟨h.symm, hs⟩
  · have hs := Nat.not_le.mp hs
    by_cases hf : m._freelist < cap
    · rw [push_back_eq_ret w m v hs hf] at h
      cases h
    · rw [push_back_eq_undefined w m v hs hf] at h
      cases h

theorem erase_ret_false_inv {w : Nat} {m m1 : SlotMap T cap} {k : Key}
    (h : erase w m k = .ret m1 false) : m1 = m ∧ is_key_valid m k = false := by
  unfold erase at h
  split at h
  · next hv => injection h with h; exact ⟨h.symm, hv⟩
  · split at h <;> cases h

theorem erase_ret_true_valid {w : Nat} {m m1 : SlotMap T cap} {k : Key}
    (h : erase w m k = .ret m1 true) : is_key_valid m k = true := by
  unfold erase at h
  split at h
  · cases h
  · next hv => simpa using hv

theorem is_key_valid_iff (m : SlotMap T cap) (k : Key) :
    is_key_valid m k = true ↔
      ∃ h : k.id < cap, k.generation = (m._indices ⟨k.id, h⟩).generation := by
  unfold is_key_valid
  by_cases h : k.id < cap
  · simp [h]
  · simp [h]

theorem erase_eq_ret_last (w : Nat) (m : SlotMap T cap) (k : Key) (hk : k.id < cap)
    (hg : k.generation = (m._indices ⟨k.id, hk⟩).generation)
    (hd : (m._indices ⟨k.id, hk⟩).id = (m._size + 2 ^ w - 1) % 2 ^ w) :
    erase w m k = .ret
      { m with
        _size := (m._size + 2 ^ w - 1) % 2 ^ w
        _freelist := k.id
        _generation := (m._generation + 1) % 2 ^ w
        _indices := Function.update m._indices ⟨k.id, hk⟩ ⟨m._freelist, m._generation⟩ }
      true := by
  have hv : is_key_valid m k = true := (is_key_valid_iff m k).mpr ⟨hk, hg⟩
  simp [erase, _free_slot, hv, hk, hd]

theorem erase_eq_ret_swap (w : Nat) (m : SlotMap T cap) (k : Key) (hk : k.id < cap)
    (hg : k.generation = (m._indices ⟨k.id, hk⟩).generation)
    (hne : (m._indices ⟨k.id, hk⟩).id ≠ (m._size + 2 ^ w - 1) % 2 ^ w)
    (hd : (m._indices ⟨k.id, hk⟩).id < cap) (hl : (m._size + 2 ^ w - 1) % 2 ^ w < cap)
    (hm : m._erase ⟨(m._size + 2 ^ w - 1) % 2 ^ w, hl⟩ < cap) :
    erase w m k = .ret
      { _size := (m._size + 2 ^ w - 1) % 2 ^ w
        _freelist := k.id
        _generation := (m._generation + 1) % 2 ^ w
        _indices :=
          Function.update
            (Function.update m._indices ⟨k.id, hk⟩ ⟨m._freelist, m._generation⟩)
            ⟨m._erase ⟨(m._size + 2 ^ w - 1) % 2 ^ w, hl⟩, hm⟩
            ⟨(m._indices ⟨k.id, hk⟩).id,
              (Function.update m._indices ⟨k.id, hk⟩ ⟨m._freelist, m._generation⟩
                ⟨m._erase ⟨(m._size + 2 ^ w - 1) % 2 ^ w, hl⟩, hm⟩).generation⟩
        _data := Function.update m._data ⟨(m._indices ⟨k.id, hk⟩).id, hd⟩
          (m._data ⟨(m._size + 2 ^ w - 1) % 2 ^ w, hl⟩)
        _erase := Function.update m._erase ⟨(m._indices ⟨k.id, hk⟩).id, hd⟩
          (m._erase ⟨(m._size + 2 ^ w - 1) % 2 ^ w, hl⟩) }
      true := by
  have hv : is_key_valid m k = true := (is_key_valid_iff m k).mpr ⟨hk, hg⟩
  simp [erase, _free_slot, hv, hk, hd, hne, hl, hm]
  have e : ∀ h1, (⟨Function.update m._erase ⟨(m._indices ⟨k.id, hk⟩).id, hd⟩
      (m._erase ⟨(m._size + 2 ^ w - 1) % 2 ^ w, hl⟩) ⟨(m._indices ⟨k.id, hk⟩).id, hd⟩, h1⟩ : Fin cap)
      = ⟨m._erase ⟨(m._size + 2 ^ w - 1) % 2 ^ w, hl⟩, hm⟩ := fun h1 => Fin.ext (by simp)
  rw [e]

theorem erase_eq_undefined (w : Nat) (m : SlotMap T cap) (k : Key) (hk : k.id < cap)
    (hg : k.generation = (m._indices ⟨k.id, hk⟩).generation)
    (hne : (m._indices ⟨k.id, hk⟩).id ≠ (m._size + 2 ^ w - 1) % 2 ^ w)
    (hb : ¬ ((m._indices ⟨k.id, hk⟩).id < cap ∧
      ∃ hl : (m._size + 2 ^ w - 1) % 2 ^ w < cap,
        m._erase ⟨(m._size + 2 ^ w - 1) % 2 ^ w, hl⟩ < cap)) :
    erase w m k = .undefined := by
  have hv : is_key_valid m k = true := (is_key_valid_iff m k).mpr ⟨hk, hg⟩
  by_cases hd : (m._indices ⟨k.id, hk⟩).id < cap
  · by_cases hl : (m._size + 2 ^ w - 1) % 2 ^ w < cap
    · have hm : ¬ m._erase ⟨(m._size + 2 ^ w - 1) % 2 ^ w, hl⟩ < cap := fun h => hb ⟨hd, hl, h⟩
      simp [erase, _free_slot, hv, hk, hd, hne, hl, hm]
    · simp [erase, _free_slot, hv, hk, hd, hne, hl]
  · simp [erase, _free_slot, hv, hk, hd, hne]

theorem pred_wrap {w n : Nat} (h0 : 0 < n) (h : n < 2 ^ w) :
    (n + 2 ^ w - 1) % 2 ^ w = n - 1 := by
  have e : n + 2 ^ w - 1 = (n - 1) + 2 ^ w := by omega
  rw [e, Nat.add_mod_right, Nat.mod_eq_of_lt (by omega)]

theorem erase_live_spec (w : Nat) (m : SlotMap T cap) (k : Key) (hw : cap < 2 ^ w)
    (hsz : m._size ≤ cap) (hk : k.id < cap)
    (hg : k.generation = (m._indices ⟨k.id, hk⟩).generation)
    (hd : (m._indices ⟨k.id, hk⟩).id < m._size)
    (hL : m._size - 1 < cap)
    (hback : ∀ h, m._erase ⟨(m._indices ⟨k.id, hk⟩).id, h⟩ = k.id)
    (hm : m._erase ⟨m._size - 1, hL⟩ < cap)
    (hmid : (m._indices ⟨m._erase ⟨m._size - 1, hL⟩, hm⟩).id = m._size - 1) :
    ∃ m1, erase w m k = .ret m1 true ∧ m1._size = m._size - 1 ∧ m1._freelist = k.id ∧
      m1._generation = (m._generation + 1) % 2 ^ w ∧
      (∀ i : Fin cap, m1._indices i =
        if i.val = k.id then ⟨m._freelist, m._generation⟩
        else if i.val = m._erase ⟨m._size - 1, hL⟩ then
          ⟨(m._indices ⟨k.id, hk⟩).id, (m._indices i).generation⟩
        else m._indices i) ∧
      (∀ p : Fin cap, m1._data p =
        if p.val = (m._indices ⟨k.id, hk⟩).id then m._data ⟨m._size - 1, hL⟩ else m._data p) ∧
      (∀ p : Fin cap, m1._erase p =
        if p.val = (m._indices ⟨k.id, hk⟩).id then m._erase ⟨m._size - 1, hL⟩
        else m._erase p) := by
  have hpos : 0 < m._size := by omega
  have hlast : (m._size + 2 ^ w - 1) % 2 ^ w = m._size - 1 := pred_wrap hpos (by omega)
  have hdc : (m._indices ⟨k.id, hk⟩).id < cap := by omega
  by_cases hne : (m._indices ⟨k.id, hk⟩).id = m._size - 1
  · refine ⟨_, erase_eq_ret_last w m k hk hg (by rw [hlast]; exact hne), by simp [hlast],
      rfl, rfl, ?_, ?_, ?_⟩
    · intro i
      dsimp only
      have hmv : m._erase ⟨m._size - 1, hL⟩ = k.id := by
        have := hback hdc
        simpa [hne] using this
      by_cases hi : i.val = k.id
      · have e1 : i = ⟨k.id, hk⟩ := Fin.ext hi
        rw [if_pos hi, e1, Function.update_same]
      · have e1 : i ≠ ⟨k.id, hk⟩ := fun h => hi (by rw [h])
        rw [if_neg hi, if_neg (by rw [hmv]; exact hi), Function.update_noteq e1]
    · intro p
      dsimp only
      by_cases hp : p.val = (m._indices ⟨k.id, hk⟩).id
      · have e1 : p = ⟨m._size - 1, hL⟩ := Fin.ext (by rw [hp, hne])
        rw [if_pos hp, e1]
      · rw [if_neg hp]
    · intro p
      dsimp only
      by_cases hp : p.val = (m._indices ⟨k.id, hk⟩).id
      · have e1 : p = ⟨m._size - 1, hL⟩ := Fin.ext (by rw [hp, hne])
        rw [if_pos hp, e1]
      · rw [if_neg hp]
  · have hmvne : m._erase ⟨m._size - 1, hL⟩ ≠ k.id := by
      intro h
      apply hne
      have e : (⟨m._erase ⟨m._size - 1, hL⟩, hm⟩ : Fin cap) = ⟨k.id, hk⟩ := Fin.ext h
      rw [e] at hmid
      exact hmid
    have hl2 : (m._size + 2 ^ w - 1) % 2 ^ w < cap := by rw [hlast]; exact hL
    have eL : (⟨(m._size + 2 ^ w - 1) % 2 ^ w, hl2⟩ : Fin cap) = ⟨m._size - 1, hL⟩ :=
      Fin.ext hlast
    have hm2 : m._erase ⟨(m._size + 2 ^ w - 1) % 2 ^ w, hl2⟩ < cap := by rw [eL]; exact hm
    have eM : (⟨m._erase ⟨(m._size + 2 ^ w - 1) % 2 ^ w, hl2⟩, hm2⟩ : Fin cap) =
        ⟨m._erase ⟨m._size - 1, hL⟩, hm⟩ := Fin.ext (congrArg m._erase eL)
    refine ⟨_, erase_eq_ret_swap w m k hk hg (by rw [hlast]; exact hne) hdc hl2 hm2,
      by simp [hlast], rfl, rfl, ?_, ?_, ?_⟩
    · intro i
      dsimp only
      rw [eM]
      by_cases hi : i.val = k.id
      · have e1 : i = ⟨k.id, hk⟩ := Fin.ext hi
        have e2 : i ≠ ⟨m._erase ⟨m._size - 1, hL⟩, hm⟩ := by
          intro h; apply hmvne; rw [← hi, h]
        rw [if_pos hi, Function.update_noteq e2, e1, Function.update_same]
      · have e1 : i ≠ ⟨k.id, hk⟩ := fun h => hi (by rw [h])
        by_cases hi2 : i.val = m._erase ⟨m._size - 1, hL⟩
        · have e2 : i = ⟨m._erase ⟨m._size - 1, hL⟩, hm⟩ := Fin.ext hi2
          have e3 : (⟨m._erase ⟨m._size - 1, hL⟩, hm⟩ : Fin cap) ≠ ⟨k.id, hk⟩ := by
            rw [← e2]; exact e1
          rw [if_neg hi, if_pos hi2, e2, Function.update_same, Function.update_noteq e3]
        · have e2 : i ≠ ⟨m._erase ⟨m._size - 1, hL⟩, hm⟩ := fun h => hi2 (by rw [h])
          rw [if_neg hi, if_neg hi2, Function.update_noteq e2, Function.update_noteq e1]
    · intro p
      dsimp only
      rw [eL]
      by_cases hp : p.val = (m._indices ⟨k.id, hk⟩).id
      · have : p = ⟨(m._indices ⟨k.id, hk⟩).id, hdc⟩ := Fin.ext hp
        rw [if_pos hp, this, Function.update_same]
      · have : p ≠ ⟨(m._indices ⟨k.id, hk⟩).id, hdc⟩ := fun h => hp (by rw [h])
        rw [if_neg hp, Function.update_noteq this]
    · intro p
      dsimp only
      rw [eL]
      by_cases hp : p.val = (m._indices ⟨k.id, hk⟩).id
      · have : p = ⟨(m._indices ⟨k.id, hk⟩).id, hdc⟩ := Fin.ext hp
        rw [if_pos hp, this, Function.update_same]
      · have : p ≠ ⟨(m._indices ⟨k.id, hk⟩).id, hdc⟩ := fun h => hp (by rw [h])
        rw [if_neg hp, Function.update_noteq this]

theorem FreeChain_congr {m m1 : SlotMap T cap} (l : List (Fin cap)) (head : Nat)
    (h : ∀ i ∈ l, (m1._indices i).id = (m._indices i).id) :
    FreeChain m1 l head ↔ FreeChain m l head := by
  induction l generalizing head with
  | nil => simp [FreeChain]
  | cons s l ih =>
    simp only [FreeChain]
    rw [h s (List.mem_cons_self _ _), ih _ (fun i hi => h i (List.mem_cons_of_mem _ hi))]

theorem init_freelist_loop_apply (w : Nat) (ind : Fin cap → Key) (n : Nat) (i : Fin cap) :
    _init_freelist_loop w ind n i =
      if i.val < n then ⟨(i.val + 1) % 2 ^ w, (ind i).generation⟩ else ind i := by
  induction n with
  | zero => simp [_init_freelist_loop]
  | succ n ih =>
    simp only [_init_freelist_loop]
    split
    · next h =>
      by_cases hi : i = ⟨n, h⟩
      · subst hi
        simp [ih]
      · rw [Function.update_noteq hi, ih]
        have hne : i.val ≠ n := fun e => hi (Fin.ext e)
        by_cases h2 : i.val < n
        · simp [h2, Nat.lt_succ_of_lt h2]
        · have h3 : ¬ i.val < n + 1 := by omega
          simp [h2, h3]
    · next h =>
      rw [ih]
      have h0 := i.isLt
      have h1 : i.val < n := by omega
      simp [h1, Nat.lt_succ_of_lt h1]

theorem clear_indices (w : Nat) (m : SlotMap T cap) (i : Fin cap) :
    (clear w m)._indices i = ⟨(i.val + 1) % 2 ^ w, (m._indices i).generation⟩ := by
  simp [clear, _init_freelist, init_freelist_loop_apply]

theorem fresh_indices [Inhabited T] (w : Nat) (i : Fin cap) :
    (fresh T cap w)._indices i = ⟨(i.val + 1) % 2 ^ w, 0⟩ := by
  rw [fresh, clear_indices]
  rfl

theorem fresh_chain [Inhabited T] (w : Nat) (hw : cap < 2 ^ w) :
    ∀ n i, i + n = cap → FreeChain (fresh T cap w) ((List.finRange cap).drop i) i := by
  intro n
  induction n with
  | zero =>
    intro i hi
    have e : i = cap := by omega
    subst e
    rw [List.drop_eq_nil_of_le (by simp)]
    rfl
  | succ n ih =>
    intro i hi
    have hlt : i < (List.finRange cap).length := by simp; omega
    rw [List.drop_eq_getElem_cons hlt]
    refine ⟨by simp, ?_⟩
    have e : ((fresh T cap w)._indices (List.finRange cap)[i]).id = i + 1 := by
      rw [fresh_indices]
      simp only [List.getElem_finRange]
      exact Nat.mod_eq_of_lt (by omega)
    rw [e]
    exact ih (i + 1) (by omega)

theorem not_live_of_size_zero (m : SlotMap T cap) (h : m._size = 0) (s : Fin cap) :
    ¬ Live m s := by
  rintro ⟨p, _, hp, _⟩
  omega

theorem runInv_init [Inhabited T] (w : Nat) (hw : cap < 2 ^ w) :
    RunInv (RunState.init T cap w) where
  gen_eq := rfl
  size_le := Nat.zero_le _
  size_eq := rfl
  dense := fun p hp => absurd hp (Nat.not_lt_zero _)
  free := ⟨List.finRange cap, by
      have := fresh_chain (T := T) w hw cap 0 (by simp)
      simpa using this,
    List.nodup_finRange cap,
    fun s => ⟨fun _ => not_live_of_size_zero _ rfl s, fun _ => List.mem_finRange s⟩,
    by simp [RunState.init]; rfl⟩
  issued_gen := fun k hk => by cases hk
  erased_sub := fun k hk => by cases hk
  erased_stale := fun k hk => by cases hk
  live_key := fun k hk => by cases hk
  live_slot := fun s hs => absurd hs (not_live_of_size_zero _ rfl s)

theorem is_key_valid_iff_fin (m : SlotMap T cap) (k : Key) :
    is_key_valid m k = true ↔
      ∃ s : Fin cap, s.val = k.id ∧ k.generation = (m._indices s).generation := by
  rw [is_key_valid_iff]
  constructor
  · rintro ⟨h, hg⟩
    exact ⟨⟨k.id, h⟩, rfl, hg⟩
  · rintro ⟨⟨s, hs⟩, rfl, hg⟩
    exact ⟨hs, hg⟩

/-- The effect of a successful `erase` of a key whose slot is live, entry by entry. -/
theorem erase_live_fin (w : Nat) (m : SlotMap T cap) (k : Key) (hw : cap < 2 ^ w)
    (hsz : m._size ≤ cap) (s d L sL : Fin cap) (hsk : s.val = k.id)
    (hg : k.generation = (m._indices s).generation)
    (hd : d.val = (m._indices s).id) (hdlt : d.val < m._size) (hback : m._erase d = s.val)
    (hL : L.val + 1 = m._size) (hsL : sL.val = m._erase L) (hsLid : (m._indices sL).id = L.val) :
    ∃ m1, erase w m k = .ret m1 true ∧ m1._size = L.val ∧ m1._freelist = k.id ∧
      m1._generation = (m._generation + 1) % 2 ^ w ∧
      (∀ i : Fin cap, m1._indices i =
        if i = s then ⟨m._freelist, m._generation⟩
        else if i = sL then ⟨d.val, (m._indices i).generation⟩
        else m._indices i) ∧
      (∀ p : Fin cap, m1._data p = if p = d then m._data L else m._data p) ∧
      (∀ p : Fin cap, m1._erase p = if p = d then sL.val else m._erase p) := by
  obtain ⟨sv, hsv⟩ := s
  obtain ⟨dv, hdv⟩ := d
  obtain ⟨Lv, hLv⟩ := L
  obtain ⟨sLv, hsLv⟩ := sL
  simp only at hsk hd hL hsL hdlt
  subst hsk
  subst hd
  have eL : Lv = m._size - 1 := by omega
  subst eL
  subst hsL
  obtain ⟨m1, h1, h2, h3, h4, h5, h6, h7⟩ :=
    erase_live_spec w m k hw hsz hsv hg hdlt hLv (fun _ => hback) hsLv hsLid
  refine ⟨m1, h1, h2, h3, h4, ?_, ?_, ?_⟩
  · intro i
    rw [h5 i]
    simp only [Fin.ext_iff]
  · intro p
    rw [h6 p]
    simp only [Fin.ext_iff]
  · intro p
    rw [h7 p]
    simp only [Fin.ext_iff]

theorem live_push_iff {m m1 : SlotMap T cap} {s p : Fin cap} {g : Nat}
    (hp : p.val = m._size) (hns : ¬ Live m s) (h1 : m1._size = m._size + 1)
    (h2 : m1._indices = Function.update m._indices s ⟨m._size, g⟩)
    (h3 : m1._erase = Function.update m._erase p s.val) (i : Fin cap) :
    Live m1 i ↔ i = s ∨ Live m i := by
  unfold Live
  rw [h1, h2, h3]
  by_cases hi : i = s
  · subst hi
    simp only [true_or, iff_true]
    exact ⟨p, by simp [hp], by omega, by simp⟩
  · rw [Function.update_noteq hi]
    constructor
    · rintro ⟨q, hq1, hq2, hq3⟩
      right
      by_cases hqp : q = p
      · subst hqp
        rw [Function.update_same] at hq3
        exact absurd (Fin.ext hq3.symm) hi
      · rw [Function.update_noteq hqp] at hq3
        have : q.val ≠ p.val := fun e => hqp (Fin.ext e)
        exact ⟨q, hq1, by omega, hq3⟩
    · rintro (h | ⟨q, hq1, hq2, hq3⟩)
      · exact absurd h hi
      · have hqp : q ≠ p := fun e => by rw [e] at hq2; omega
        exact ⟨q, hq1, by omega, by rw [Function.update_noteq hqp]; exact hq3⟩

theorem live_erase_iff {m m1 : SlotMap T cap} {s d L sL : Fin cap} {x : Key}
    (hd : d.val = (m._indices s).id) (hdlt : d.val < m._size) (hback : m._erase d = s.val)
    (hL : L.val + 1 = m._size) (hsL : sL.val = m._erase L) (hsLid : (m._indices sL).id = L.val)
    (hdense : ∀ q : Fin cap, q.val < m._size →
      ∃ s1 : Fin cap, s1.val = m._erase q ∧ (m._indices s1).id = q.val)
    (h1 : m1._size = L.val)
    (h2 : ∀ i : Fin cap, m1._indices i =
        if i = s then x
        else if i = sL then ⟨d.val, (m._indices i).generation⟩
        else m._indices i)
    (h3 : ∀ p : Fin cap, m1._erase p = if p = d then sL.val else m._erase p) (i : Fin cap) :
    Live m1 i ↔ Live m i ∧ i ≠ s := by
  have hown : ∀ q : Fin cap, q.val < m._size → m._erase q = s.val → q = d := by
    intro q hq1 hq2
    obtain ⟨s1, hs1, hs2⟩ := hdense q hq1
    have : s1 = s := Fin.ext (by rw [hs1, hq2])
    subst this
    exact Fin.ext (by rw [← hs2, hd])
  have hsLs : d ≠ L → sL ≠ s := by
    intro hne e
    apply hne
    apply Fin.ext
    rw [hd, ← e, hsLid]
  unfold Live
  by_cases hi : i = s
  · subst hi
    simp only [ne_eq, not_true_eq_false, and_false, iff_false]
    rintro ⟨q, _, hq2, hq3⟩
    rw [h1] at hq2
    rw [h3] at hq3
    by_cases hqd : q = d
    · rw [if_pos hqd] at hq3
      have e1 : sL = i := Fin.ext hq3
      have e2 : d ≠ L := fun e => by rw [hqd, e] at hq2; omega
      exact hsLs e2 e1
    · rw [if_neg hqd] at hq3
      exact hqd (hown q (by omega) hq3)
  · by_cases hi2 : i = sL
    · subst hi2
      have hdL : d ≠ L := by
        intro e
        apply hi
        apply Fin.ext
        rw [hsL, ← e, hback]
      have hdL2 : d.val ≠ L.val := fun e => hdL (Fin.ext e)
      constructor
      · intro _
        exact ⟨⟨L, hsLid.symm, by omega, hsL.symm⟩, hi⟩
      · intro _
        refine ⟨d, ?_, by omega, ?_⟩
        · rw [h2, if_neg hi, if_pos rfl]
        · rw [h3, if_pos rfl]
    · rw [h2, if_neg hi, if_neg hi2, h1]
      constructor
      · rintro ⟨q, hq1, hq2, hq3⟩
        rw [h3] at hq3
        by_cases hqd : q = d
        · rw [if_pos hqd] at hq3
          exact absurd (Fin.ext hq3.symm) hi2
        · rw [if_neg hqd] at hq3
          exact ⟨⟨q, hq1, by omega, hq3⟩, hi⟩
      · rintro ⟨⟨q, hq1, hq2, hq3⟩, _⟩
        have hqL : q.val ≠ L.val := by
          intro e
          have : q = L := Fin.ext e
          rw [this, ← hsL] at hq3
          exact hi2 (Fin.ext hq3.symm)
        have hqd : q ≠ d := by
          intro e
          rw [e, hback] at hq3
          exact hi (Fin.ext hq3.symm)
        exact ⟨q, hq1, by omega, by rw [h3, if_neg hqd]; exact hq3⟩

/-- The effect of a successful `push_back`, field by field. -/
theorem push_back_fin (w : Nat) (m : SlotMap T cap) (v : T) (s p : Fin cap)
    (hs : s.val = m._freelist) (hp : p.val = m._size) :
    ∃ m1, push_back w m v = .ret m1 ⟨s.val, m._generation⟩ ∧
      m1._size = (m._size + 1) % 2 ^ w ∧ m1._freelist = (m._indices s).id ∧
      m1._generation = (m._generation + 1) % 2 ^ w ∧
      m1._indices = Function.update m._indices s ⟨m._size, m._generation⟩ ∧
      m1._data = Function.update m._data p v ∧
      m1._erase = Function.update m._erase p s.val := by
  obtain ⟨sv, hsv⟩ := s
  obtain ⟨pv, hpv⟩ := p
  simp only at hs hp
  subst hs
  subst hp
  exact ⟨_, push_back_eq_ret w m v hpv hsv, rfl, rfl, rfl, rfl, rfl, rfl⟩

theorem runInv_push {w : Nat} {t : RunState T cap} (hw : cap < 2 ^ w)
    (hb : t.bumps + 1 < 2 ^ w) (inv : RunInv t) {v : T} {m : SlotMap T cap} {k : Key}
    (h : push_back w t.map v = .ret m k) :
    RunInv ⟨m, k :: t.issued, t.erased, t.bumps + 1⟩ := by
  obtain ⟨m0, issued, erased, bumps⟩ := t
  obtain ⟨hgen, hsle, hseq, hdense, ⟨fl, hchain, hnd, hmem, hlen⟩, hig, hsub, hstale, hlk, hls⟩ :=
    inv
  simp only at hgen hsle hseq hdense hchain hmem hlen hig hsub hstale hlk hls h hb
  have hs : m0._size < cap := by
    by_contra hc
    rw [push_back_eq_thrown w m0 v (Nat.not_lt.mp hc)] at h
    cases h
  cases fl with
  | nil =>
    simp at hlen
    omega
  | cons s rest =>
    obtain ⟨hhead, hrest⟩ := hchain
    obtain ⟨hsrest, hndrest⟩ := List.nodup_cons.mp hnd
    obtain ⟨m1, hpush, h1, h2, h3, h4, h5, h6⟩ :=
      push_back_fin w m0 v s ⟨m0._size, hs⟩ hhead.symm rfl
    rw [hpush] at h
    injection h with hm hk
    subst hm
    subst hk
    have h1 : m1._size = m0._size + 1 := by
      rw [h1]
      exact Nat.mod_eq_of_lt (by omega)
    have hns : ¬ Live m0 s := (hmem s).mp (List.mem_cons_self _ _)
    have hlive := fun i => live_push_iff (g := m0._generation) (p := ⟨m0._size, hs⟩) rfl hns h1 h4 h6 i
    have hfreshkey : (⟨s.val, m0._generation⟩ : Key) ∉ issued := by
      intro hin
      have := hig _ hin
      simp only at this
      omega
    refine ⟨?_, ?_, ?_, ?_, ⟨rest, ?_, hndrest, ?_, ?_⟩, ?_, ?_, ?_, ?_, ?_⟩
    · show m1._generation = bumps + 1
      rw [h3, hgen]
      exact Nat.mod_eq_of_lt hb
    · show m1._size ≤ cap
      omega
    · show m1._size + erased.length = (_ :: issued).length
      simp only [List.length_cons]
      omega
    · intro q hq
      simp only at hq ⊢
      rw [h1] at hq
      by_cases hqp : q = ⟨m0._size, hs⟩
      · subst hqp
        exact ⟨s, by rw [h6, Function.update_same], by rw [h4, Function.update_same]⟩
      · have hq2 : q.val < m0._size := by
          have : q.val ≠ m0._size := fun e => hqp (Fin.ext e)
          omega
        obtain ⟨s1, hs1, hs2⟩ := hdense q hq2
        have hs1s : s1 ≠ s := by
          intro e
          subst e
          exact hns ⟨q, hs2.symm, hq2, hs1.symm⟩
        exact ⟨s1, by rw [h6, Function.update_noteq hqp]; exact hs1,
          by rw [h4, Function.update_noteq hs1s]; exact hs2⟩
    · show FreeChain m1 rest m1._freelist
      rw [h2]
      refine (FreeChain_congr rest _ ?_).mpr hrest
      intro i hi
      have : i ≠ s := fun e => hsrest (e ▸ hi)
      rw [h4, Function.update_noteq this]
    · intro i
      simp only
      rw [hlive i]
      constructor
      · intro hi
        rintro (e | hl)
        · exact hsrest (e ▸ hi)
        · exact (hmem i).mp (List.mem_cons_of_mem _ hi) hl
      · intro hn
        have hi : i ∈ s :: rest := (hmem i).mpr (fun hl => hn (Or.inr hl))
        rcases List.mem_cons.mp hi with e | hi
        · exact absurd (Or.inl e) hn
        · exact hi
    · simp only [List.length_cons] at hlen ⊢
      omega
    · intro j hj
      simp only at hj ⊢
      rcases List.mem_cons.mp hj with e | hj
      · subst e
        simp only
        omega
      · have := hig j hj
        omega
    · intro j hj
      exact List.mem_cons_of_mem _ (hsub j hj)
    · intro j hj
      simp only at hj ⊢
      by_contra hv
      have hv : is_key_valid m1 j = true := by simpa using hv
      obtain ⟨s1, hs1, hg1⟩ := (is_key_valid_iff_fin _ _).mp hv
      rw [h4] at hg1
      by_cases e : s1 = s
      · subst e
        rw [Function.update_same] at hg1
        have := hig j (hsub j hj)
        simp only at hg1
        omega
      · rw [Function.update_noteq e] at hg1
        have := (is_key_valid_iff_fin m0 j).mpr ⟨s1, hs1, hg1⟩
        rw [hstale j hj] at this
        cases this
    · intro j hj hje
      simp only at hj hje ⊢
      rcases List.mem_cons.mp hj with e | hj
      · subst e
        exact ⟨s, rfl, (hlive s).mpr (Or.inl rfl), by rw [h4, Function.update_same]⟩
      · obtain ⟨s1, hs1, hl1, hg1⟩ := hlk j hj hje
        have hne : s1 ≠ s := fun e => hns (e ▸ hl1)
        exact ⟨s1, hs1, (hlive s1).mpr (Or.inr hl1),
          by rw [h4, Function.update_noteq hne]; exact hg1⟩
    · intro i hi
      simp only at hi ⊢
      rcases (hlive i).mp hi with e | hl
      · subst e
        exact ⟨_, List.mem_cons_self _ _, fun hin => hfreshkey (hsub _ hin), rfl⟩
      · obtain ⟨j, hj1, hj2, hj3⟩ := hls i hl
        exact ⟨j, List.mem_cons_of_mem _ hj1, hj2, hj3⟩

theorem runInv_erase {w : Nat} {t : RunState T cap} (hw : cap < 2 ^ w)
    (hb : t.bumps + 1 < 2 ^ w) (inv : RunInv t) {k : Key} {m : SlotMap T cap}
    (hk : k ∈ t.issued) (h : erase w t.map k = .ret m true) :
    RunInv ⟨m, t.issued, k :: t.erased, t.bumps + 1⟩ := by
  obtain ⟨m0, issued, erased, bumps⟩ := t
  obtain ⟨hgen, hsle, hseq, hdense, ⟨fl, hchain, hnd, hmem, hlen⟩, hig, hsub, hstale, hlk, hls⟩ :=
    inv
  simp only at hgen hsle hseq hdense hchain hmem hlen hig hsub hstale hlk hls h hb hk
  have hv := erase_ret_true_valid h
  have hke : k ∉ erased := fun hin => by
    rw [hstale k hin] at hv
    cases hv
  obtain ⟨s, hsk, ⟨d, hd1, hd2, hd3⟩, hgs⟩ := hlk k hk hke
  have hLlt : m0._size - 1 < cap := by omega
  have hL : (⟨m0._size - 1, hLlt⟩ : Fin cap).val + 1 = m0._size := by
    simp only
    omega
  generalize (⟨m0._size - 1, hLlt⟩ : Fin cap) = L at hL
  obtain ⟨sL, hsL1, hsL2⟩ := hdense L (by omega)
  obtain ⟨m1, he, h1, h2, h3, h4, h5, h6⟩ :=
    erase_live_fin w m0 k hw hsle s d L sL hsk hgs.symm hd1 hd2 hd3 hL hsL1 hsL2
  rw [he] at h
  injection h with hm
  subst hm
  have hlive := fun i => live_erase_iff hd1 hd2 hd3 hL hsL1 hsL2 hdense h1 h4 h6 i
  have hlive_s : Live m0 s := ⟨d, hd1, hd2, hd3⟩
  have hlive_sL : Live m0 sL := ⟨L, hsL2.symm, by omega, hsL1.symm⟩
  have hstamp : ∀ i, i ≠ s → (m1._indices i).generation = (m0._indices i).generation := by
    intro i hi
    rw [h4, if_neg hi]
    split <;> rfl
  have hkgen : k.generation < bumps := hig k hk
  refine ⟨?_, ?_, ?_, ?_, ⟨s :: fl, ⟨?_, ?_⟩, ?_, ?_, ?_⟩, ?_, ?_, ?_, ?_, ?_⟩
  · show m1._generation = bumps + 1
    rw [h3, hgen]
    exact Nat.mod_eq_of_lt hb
  · show m1._size ≤ cap
    have := L.isLt
    omega
  · show m1._size + (k :: erased).length = issued.length
    simp only [List.length_cons]
    omega
  · intro q hq
    simp only at hq ⊢
    rw [h1] at hq
    by_cases hqd : q = d
    · subst hqd
      have hne : sL ≠ s := by
        intro e
        rw [e] at hsL2
        omega
      exact ⟨sL, by rw [h6, if_pos rfl], by rw [h4, if_neg hne, if_pos rfl]⟩
    · obtain ⟨s1, hs1, hs2⟩ := hdense q (by omega)
      have hne1 : s1 ≠ s := by
        intro e
        rw [e] at hs2
        exact hqd (Fin.ext (by omega))
      have hne2 : s1 ≠ sL := by
        intro e
        rw [e] at hs2
        omega
      exact ⟨s1, by rw [h6, if_neg hqd]; exact hs1,
        by rw [h4, if_neg hne1, if_neg hne2]; exact hs2⟩
  · show m1._freelist = s.val
    rw [h2, hsk]
  · show FreeChain m1 fl (m1._indices s).id
    rw [h4, if_pos rfl]
    refine (FreeChain_congr fl _ ?_).mpr hchain
    intro i hi
    have hnl := (hmem i).mp hi
    have hne1 : i ≠ s := fun e => hnl (e ▸ hlive_s)
    have hne2 : i ≠ sL := fun e => hnl (e ▸ hlive_sL)
    rw [h4, if_neg hne1, if_neg hne2]
  · exact List.nodup_cons.mpr ⟨fun hin => (hmem s).mp hin hlive_s, hnd⟩
  · intro i
    simp only
    rw [hlive i]
    constructor
    · intro hi
      rcases List.mem_cons.mp hi with e | hi
      · rintro ⟨_, hne⟩
        exact hne e
      · rintro ⟨hl, _⟩
        exact (hmem i).mp hi hl
    · intro hn
      by_cases e : i = s
      · rw [e]
        exact List.mem_cons_self _ _
      · exact List.mem_cons_of_mem _ ((hmem i).mpr (fun hl => hn ⟨hl, e⟩))
  · simp only [List.length_cons]
    omega
  · intro j hj
    have := hig j hj
    simp only
    omega
  · intro j hj
    rcases List.mem_cons.mp hj with e | hj
    · rw [e]
      exact hk
    · exact hsub j hj
  · intro j hj
    simp only at hj ⊢
    have hjiss : j ∈ issued := by
      rcases List.mem_cons.mp hj with e | hj
      · rw [e]
        exact hk
      · exact hsub j hj
    by_contra hv1
    have hv1 : is_key_valid m1 j = true := by simpa using hv1
    obtain ⟨s1, hs1, hg1⟩ := (is_key_valid_iff_fin _ _).mp hv1
    by_cases e : s1 = s
    · rw [h4, if_pos e] at hg1
      have := hig j hjiss
      simp only at hg1
      omega
    · rw [hstamp s1 e] at hg1
      rcases List.mem_cons.mp hj with e1 | hj
      · apply e
        apply Fin.ext
        rw [hs1, hsk, e1]
      · have := (is_key_valid_iff_fin m0 j).mpr ⟨s1, hs1, hg1⟩
        rw [hstale j hj] at this
        cases this
  · intro j hj hje
    simp only at hj hje ⊢
    have hjk : j ≠ k := fun e => hje (e ▸ List.mem_cons_self _ _)
    have hje2 : j ∉ erased := fun hin => hje (List.mem_cons_of_mem _ hin)
    obtain ⟨s1, hs1, hl1, hg1⟩ := hlk j hj hje2
    have hne : s1 ≠ s := by
      intro e
      apply hjk
      rw [e] at hs1 hg1
      cases j
      cases k
      simp only at hs1 hg1 hsk hgs
      simp only [Key.mk.injEq]
      omega
    exact ⟨s1, hs1, (hlive s1).mpr ⟨hl1, hne⟩, by rw [hstamp s1 hne]; exact hg1⟩
  · intro i hi
    simp only at hi ⊢
    obtain ⟨hl, hne⟩ := (hlive i).mp hi
    obtain ⟨j, hj1, hj2, hj3⟩ := hls i hl
    refine ⟨j, hj1, ?_, hj3⟩
    intro hin
    rcases List.mem_cons.mp hin with e | hin
    · apply hne
      apply Fin.ext
      rw [← hj3, e, hsk]
    · exact hj2 hin

theorem resolve_eq (m : SlotMap T cap) (j : Key) (s p : Fin cap) (hs : s.val = j.id)
    (hp : p.val = (m._indices s).id) : resolve m j = some (m._data p) := by
  obtain ⟨sv, hsv⟩ := s
  obtain ⟨pv, hpv⟩ := p
  simp only at hs hp
  subst hs
  subst hp
  simp [resolve, hsv, hpv]

end SlotMap

theorem run_inv {T : Type} [Inhabited T] {cap w : Nat} {t : RunState T cap}
    (hw : cap < 2 ^ w) (hr : Run T cap w t) : t.bumps < 2 ^ w → RunInv t := by
  induction hr with
  | fresh =>
    intro _
    exact SlotMap.runInv_init w hw
  | push_ok _ hp ih =>
    intro hb
    exact SlotMap.runInv_push hw hb (ih (by simp only at hb; omega)) hp
  | push_thrown _ hp ih =>
    intro hb
    obtain ⟨e, _⟩ := SlotMap.push_back_thrown_inv hp
    subst e
    exact ih hb
  | erase_true _ hk he ih =>
    intro hb
    exact SlotMap.runInv_erase hw hb (ih (by simp only at hb; omega)) hk he
  | erase_false _ _ he ih =>
    intro hb
    obtain ⟨e, _⟩ := SlotMap.erase_ret_false_inv he
    subst e
    exact ih hb

theorem run_step {T : Type} [Inhabited T] {cap w : Nat} {t t1 : RunState T cap} {op : Op T}
    (hr : Run T cap w t) (h : RunState.step w t op = some t1) : Run T cap w t1 := by
  cases op with
  | push v =>
    simp only [RunState.step] at h
    split at h
    · next m k hp =>
      injection h with h
      subst h
      exact Run.push_ok hr hp
    · next m hp =>
      injection h with h
      subst h
      exact Run.push_thrown hr hp
    · cases h
  | erase k =>
    simp only [RunState.step] at h
    split at h
    · next hk =>
      split at h
      · next m he =>
        injection h with h
        subst h
        exact Run.erase_true hr hk he
      · next m he =>
        injection h with h
        subst h
        exact Run.erase_false hr hk he
      · cases h
    · cases h

theorem run_exec {T : Type} [Inhabited T] {cap w : Nat} (ops : List (Op T)) :
    ∀ {t t1 : RunState T cap}, Run T cap w t → RunState.exec w ops t = some t1 →
      Run T cap w t1 := by
  induction ops with
  | nil =>
    intro t t1 hr h
    simp only [RunState.exec] at h
    injection h with h
    subst h
    exact hr
  | cons op ops ih =>
    intro t t1 hr h
    simp only [RunState.exec] at h
    cases hs : RunState.step w t op with
    | none =>
      rw [hs] at h
      cases h
    | some t2 =>
      rw [hs] at h
      exact ih (run_step hr hs) h

theorem exec_eq_some_getD {T : Type} {cap w : Nat} (ops : List (Op T))
    (t d : RunState T cap) (h : (RunState.exec w ops t).isSome = true) :
    RunState.exec w ops t = some ((RunState.exec w ops t).getD d) := by
  cases he : RunState.exec w ops t with
  | none =>
    rw [he] at h
    cases h
  | some t1 => rfl

theorem run_of_exec {T : Type} [Inhabited T] {cap w : Nat} (ops : List (Op T))
    (d : RunState T cap)
    (h : (RunState.exec w ops (RunState.init T cap w)).isSome = true) :
    Run T cap w ((RunState.exec w ops (RunState.init T cap w)).getD d) := by
  cases he : RunState.exec w ops (RunState.init T cap w) with
  | none =>
    rw [he] at h
    cases h
  | some t1 => exact run_exec ops Run.fresh he

namespace SlotMap
variable {T : Type} {cap : Nat}

theorem runInv_freelist_head {t : RunState T cap} (inv : RunInv t) (hs : t.map._size < cap) :
    ∃ s : Fin cap, s.val = t.map._freelist ∧ ¬ Live t.map s := by
  obtain ⟨fl, hchain, _, hmem, hlen⟩ := inv.free
  cases fl with
  | nil =>
    simp at hlen
    omega
  | cons s rest => exact ⟨s, hchain.1.symm, (hmem s).mp (List.mem_cons_self _ _)⟩

theorem push_back_ret_key {w : Nat} {m m1 : SlotMap T cap} {v : T} {k : Key}
    (h : push_back w m v = .ret m1 k) : k = ⟨m._freelist, m._generation⟩ := by
  by_cases hs : cap ≤ m._size
  · rw [push_back_eq_thrown w m v hs] at h
    cases h
  · have hs := Nat.not_le.mp hs
    by_cases hf : m._freelist < cap
    · rw [push_back_eq_ret w m v hs hf] at h
      injection h with _ hk
      exact hk.symm
    · rw [push_back_eq_undefined w m v hs hf] at h
      cases h

end SlotMap

theorem run_issued_nodup {T : Type} [Inhabited T] {cap w : Nat} {t : RunState T cap}
    (hw : cap < 2 ^ w) (hr : Run T cap w t) : t.bumps < 2 ^ w → t.issued.Nodup := by
  induction hr with
  | fresh =>
    intro _
    exact List.nodup_nil
  | @push_ok t v m k hr hp ih =>
    intro hb
    have hb2 : t.bumps < 2 ^ w := by simp only at hb; omega
    have inv := run_inv hw hr hb2
    refine List.nodup_cons.mpr ⟨?_, ih hb2⟩
    intro hin
    have h1 := inv.issued_gen k hin
    have h2 := SlotMap.push_back_ret_key hp
    have h3 := inv.gen_eq
    rw [h2] at h1
    simp only at h1
    omega
  | push_thrown _ _ ih =>
    intro hb
    exact ih hb
  | erase_true _ _ _ ih =>
    intro hb
    exact ih (by simp only at hb; omega)
  | erase_false _ _ _ ih =>
    intro hb
    exact ih hb

theorem pushAll_run {T : Type} [Inhabited T] {cap w : Nat} (hw : cap < 2 ^ w) (vs : List T) :
    ∀ t : RunState T cap, Run T cap w t → t.erased = [] → t.bumps + vs.length < 2 ^ w →
      t.map._size + vs.length ≤ cap →
      ∃ m ks, SlotMap.pushAll w t.map vs = some (m, ks) ∧ ks.length = vs.length ∧
        Run T cap w ⟨m, ks.reverse ++ t.issued, [], t.bumps + vs.length⟩ ∧
        m._size = t.map._size + vs.length := by
  induction vs with
  | nil =>
    intro t hr he _ _
    refine ⟨t.map, [], rfl, rfl, ?_, rfl⟩
    obtain ⟨m0, issued, erased, bumps⟩ := t
    simp only at he
    subst he
    exact hr
  | cons v vs ih =>
    intro t hr he hb hsz
    simp only [List.length_cons] at hb hsz
    have inv := run_inv hw hr (by omega)
    have hs : t.map._size < cap := by omega
    obtain ⟨s, hs1, _⟩ := SlotMap.runInv_freelist_head inv hs
    obtain ⟨m1, hpush, h1, _⟩ := SlotMap.push_back_fin w t.map v s ⟨t.map._size, hs⟩ hs1 rfl
    have hr1 := Run.push_ok hr hpush
    have h1 : m1._size = t.map._size + 1 := by
      rw [h1]
      exact Nat.mod_eq_of_lt (by omega)
    obtain ⟨m, ks, hpa, hlen, hrun, hsize⟩ := ih _ hr1 he (by simp only; omega)
      (by simp only; omega)
    refine ⟨m, ⟨s.val, t.map._generation⟩ :: ks, ?_, by simp [hlen], ?_, ?_⟩
    · simp only [SlotMap.pushAll, hpush]
      simp only at hpa
      rw [hpa]
      rfl
    · simp only [List.reverse_cons, List.append_assoc, List.singleton_append, List.length_cons]
      simp only [he] at hrun
      have e : t.bumps + 1 + vs.length = t.bumps + (vs.length + 1) := by omega
      rw [← e]
      exact hrun
    · simp only at hsize
      simp only [List.length_cons]
      omega

namespace SlotMap
variable {T : Type} {cap : Nat}

/-- What a successful `erase` does to the generations, in any state. -/
theorem erase_ret_true_inv {w : Nat} {m m1 : SlotMap T cap} {k : Key}
    (h : erase w m k = .ret m1 true) :
    ∃ s : Fin cap, s.val = k.id ∧ k.generation = (m._indices s).generation ∧
      m1._generation = (m._generation + 1) % 2 ^ w ∧
      (m1._indices s).generation = m._generation ∧
      (∀ i, i ≠ s → (m1._indices i).generation = (m._indices i).generation) ∧
      ((m._indices s).id = (m._size + 2 ^ w - 1) % 2 ^ w ∨
        (m._size + 2 ^ w - 1) % 2 ^ w < cap) := by
  obtain ⟨hk, hg⟩ := (is_key_valid_iff m k).mp (erase_ret_true_valid h)
  by_cases hd : (m._indices ⟨k.id, hk⟩).id = (m._size + 2 ^ w - 1) % 2 ^ w
  · rw [erase_eq_ret_last w m k hk hg hd] at h
    injection h with hm
    subst hm
    refine ⟨⟨k.id, hk⟩, rfl, hg, rfl, ?_, ?_, Or.inl hd⟩
    · simp
    · intro i hi
      simp [Function.update_noteq hi]
  · by_cases hb : (m._indices ⟨k.id, hk⟩).id < cap ∧
        ∃ hl : (m._size + 2 ^ w - 1) % 2 ^ w < cap,
          m._erase ⟨(m._size + 2 ^ w - 1) % 2 ^ w, hl⟩ < cap
    · obtain ⟨hdc, hl, hmv⟩ := hb
      rw [erase_eq_ret_swap w m k hk hg hd hdc hl hmv] at h
      injection h with hm
      subst hm
      refine ⟨⟨k.id, hk⟩, rfl, hg, rfl, ?_, ?_, Or.inr hl⟩
      · simp only [Function.update_apply]
        split
        · next e => simp [e]
        · simp
      · intro i hi
        simp only [Function.update_apply]
        split
        · next e =>
          subst e
          simp only [if_neg hi]
        · simp only [if_neg hi]
    · rw [erase_eq_undefined w m k hk hg hd hb] at h
      cases h

theorem push_back_ret_inv {w : Nat} {m m1 : SlotMap T cap} {v : T} {k : Key}
    (h : push_back w m v = .ret m1 k) :
    ∃ s : Fin cap, s.val = m._freelist ∧ m1._generation = (m._generation + 1) % 2 ^ w ∧
      (m1._indices s).generation = m._generation ∧
      (∀ i, i ≠ s → (m1._indices i).generation = (m._indices i).generation) := by
  by_cases hs : cap ≤ m._size
  · rw [push_back_eq_thrown w m v hs] at h
    cases h
  · have hs := Nat.not_le.mp hs
    by_cases hf : m._freelist < cap
    · rw [push_back_eq_ret w m v hs hf] at h
      injection h with hm _
      subst hm
      refine ⟨⟨m._freelist, hf⟩, rfl, rfl, by simp, ?_⟩
      intro i hi
      simp [Function.update_noteq hi]
    · rw [push_back_eq_undefined w m v hs hf] at h
      cases h

end SlotMap

theorem Outcome.eq_ret_of_val {σ α : Type} {o : Outcome σ α} {a : α} (d : σ)
    (h : o.val? = some a) : o = .ret (o.stateD d) a := by
  cases o with
  | ret s b =>
    simp only [Outcome.val?, Option.some.injEq] at h
    subst h
    rfl
  | thrown s => cases h
  | undefined => cases h

theorem run_api {T : Type} [Inhabited T] {cap w : Nat} {t : RunState T cap}
    (hr : Run T cap w t) : ApiReach T cap w t.map t.bumps := by
  induction hr with
  | fresh => exact ApiReach.fresh
  | push_ok _ hp ih => exact ApiReach.push_ok ih hp
  | push_thrown _ hp ih => exact ApiReach.push_thrown ih hp
  | erase_true _ _ he ih => exact ApiReach.erase_true ih he
  | erase_false _ _ he ih => exact ApiReach.erase_false ih he

/-- While the generation counter has not wrapped it counts the increments, and every
slot generation is below it, unless nothing has been inserted or erased yet. -/
theorem api_gen_inv {T : Type} [Inhabited T] {cap w : Nat} {m : SlotMap T cap} {b : Nat}
    (hr : ApiReach T cap w m b) : b < 2 ^ w →
      m._generation = b ∧
        ((∀ i, (m._indices i).generation < b) ∨
          (m._size = 0 ∧ ∀ i : Fin cap, m._indices i = ⟨(i.val + 1) % 2 ^ w, 0⟩)) := by
  induction hr with
  | fresh =>
    intro _
    exact ⟨rfl, Or.inr ⟨rfl, fun i => SlotMap.fresh_indices w i⟩⟩
  | @push_ok m m1 b v k _ hp ih =>
    intro hb
    obtain ⟨hg, hst⟩ := ih (by omega)
    obtain ⟨s, _, h1, h2, h3⟩ := SlotMap.push_back_ret_inv hp
    refine ⟨by rw [h1, hg]; exact Nat.mod_eq_of_lt hb, Or.inl ?_⟩
    intro i
    by_cases e : i = s
    · rw [e, h2]
      omega
    · rw [h3 i e]
      rcases hst with hst | ⟨_, hst⟩
      · have := hst i
        omega
      · rw [hst i]
        simp
  | push_thrown _ hp ih =>
    intro hb
    obtain ⟨e, _⟩ := SlotMap.push_back_thrown_inv hp
    subst e
    exact ih hb
  | @erase_true m m1 b k _ he ih =>
    intro hb
    obtain ⟨hg, hst⟩ := ih (by omega)
    obtain ⟨s, _, _, h1, h2, h3, _⟩ := SlotMap.erase_ret_true_inv he
    refine ⟨by rw [h1, hg]; exact Nat.mod_eq_of_lt hb, Or.inl ?_⟩
    intro i
    by_cases e : i = s
    · rw [e, h2]
      omega
    · rw [h3 i e]
      rcases hst with hst | ⟨_, hst⟩
      · have := hst i
        omega
      · rw [hst i]
        simp
  | erase_false _ he ih =>
    intro hb
    obtain ⟨e, _⟩ := SlotMap.erase_ret_false_inv he
    subst e
    exact ih hb
  | @clear m b _ ih =>
    intro hb
    obtain ⟨hg, hst⟩ := ih hb
    refine ⟨hg, ?_⟩
    rcases hst with hst | ⟨hz, hst⟩
    · left
      intro i
      rw [SlotMap.clear_indices]
      exact hst i
    · right
      refine ⟨hz, fun i => ?_⟩
      rw [SlotMap.clear_indices, hst i]

namespace SlotMap
variable {T : Type} {cap : Nat}

/-- On a fresh map whose capacity is the largest index value, the top slot links to
`Capacity`, which is also `_size - 1` computed in `index_t` with `_size = 0`: `erase` of
the never issued key `{Capacity - 1, 0}` takes the branch without array access, twice. -/
theorem erase_fresh_top_twice [Inhabited T] (w : Nat) (hc : cap + 1 = 2 ^ w) (h2 : 2 ≤ cap) :
    ∃ m1 m2 : SlotMap T cap, erase w (fresh T cap w) ⟨cap - 1, 0⟩ = .ret m1 true ∧
      erase w m1 ⟨cap - 1, 0⟩ = .ret m2 true := by
  have hk : cap - 1 < cap := by omega
  have hlast : ((fresh T cap w)._size + 2 ^ w - 1) % 2 ^ w = cap := by
    show (0 + 2 ^ w - 1) % 2 ^ w = cap
    rw [Nat.zero_add]
    exact (Nat.mod_eq_of_lt (by omega)).trans (by omega)
  have hid : ((fresh T cap w)._indices ⟨cap - 1, hk⟩).id = cap := by
    rw [fresh_indices]
    show (cap - 1 + 1) % 2 ^ w = cap
    rw [Nat.sub_add_cancel (by omega)]
    exact Nat.mod_eq_of_lt (by omega)
  have hg : (0 : Nat) = ((fresh T cap w)._indices ⟨cap - 1, hk⟩).generation := by
    rw [fresh_indices]
  have e1 := erase_eq_ret_last w (fresh T cap w) ⟨cap - 1, 0⟩ hk hg (by rw [hid, hlast])
  have e : cap + 2 ^ w - 1 = (cap - 1) + 2 ^ w := by omega
  have hlast2 : (cap + 2 ^ w - 1) % 2 ^ w = cap - 1 := by
    rw [e, Nat.add_mod_right, Nat.mod_eq_of_lt (by omega)]
  exact ⟨_, _, e1, erase_eq_ret_swap w _ ⟨cap - 1, 0⟩ hk
    (by simp only [Function.update_same]; rfl)
    (by
      simp only [Function.update_same, hlast]
      show 0 ≠ (cap + 2 ^ w - 1) % 2 ^ w
      omega)
    (by
      simp only [Function.update_same]
      show 0 < cap
      omega)
    (by
      simp only [hlast]
      omega)
    (by
      show 0 < cap
      omega)⟩

theorem firstN_congr {f g : Fin cap → T} (n : Nat)
    (h : ∀ p : Fin cap, p.val < n → f p = g p) : firstN f n = firstN g n := by
  induction n with
  | zero => rfl
  | succ n ih =>
    simp only [firstN]
    rw [ih (fun p hp => h p (Nat.lt_succ_of_lt hp))]
    by_cases hn : n < cap
    · simp only [dif_pos hn]
      rw [h ⟨n, hn⟩ (Nat.lt_succ_self n)]
    · simp only [dif_neg hn]

theorem firstN_succ (f : Fin cap → T) (L : Fin cap) :
    firstN f (L.val + 1) = firstN f L.val ++ [f L] := by
  simp only [firstN, dif_pos L.isLt]

/-- Overwriting one of the first `n` entries exchanges one element of the list. -/
theorem firstN_replace_perm {f g : Fin cap → T} {d : Fin cap} {x : T} (n : Nat)
    (hd : d.val < n) (h : ∀ p : Fin cap, g p = if p = d then x else f p) :
    (f d :: firstN g n).Perm (x :: firstN f n) := by
  induction n with
  | zero => omega
  | succ n ih =>
    simp only [firstN]
    by_cases hn : n < cap
    · simp only [dif_pos hn]
      by_cases hdn : d.val = n
      · have e : d = ⟨n, hn⟩ := Fin.ext hdn
        have hc : firstN g n = firstN f n := by
          apply firstN_congr
          intro p hp
          rw [h p, if_neg]
          intro e2
          rw [e2] at hp
          omega
        rw [hc, h ⟨n, hn⟩, if_pos e.symm, e]
        have p1 : (f ⟨n, hn⟩ :: (firstN f n ++ [x])).Perm (firstN f n ++ [x] ++ [f ⟨n, hn⟩]) :=
          (List.perm_append_singleton _ _).symm
        have p2 : (x :: (firstN f n ++ [f ⟨n, hn⟩])).Perm (firstN f n ++ [f ⟨n, hn⟩] ++ [x]) :=
          (List.perm_append_singleton _ _).symm
        refine p1.trans (List.Perm.trans ?_ p2.symm)
        rw [List.append_assoc, List.append_assoc]
        exact List.Perm.append_left _ (List.Perm.swap _ _ _)
      · have hne : (⟨n, hn⟩ : Fin cap) ≠ d := fun e => hdn (by rw [← e])
        rw [h ⟨n, hn⟩, if_neg hne]
        have ih2 := ih (by omega)
        have := List.Perm.append_right [f ⟨n, hn⟩] ih2
        simpa using this
    · have := d.isLt
      simp only [dif_neg hn, List.append_nil]
      exact ih (by omega)

theorem packed_push {w : Nat} {m : SlotMap T cap} (hw : cap < 2 ^ w) (hp : Packed m)
    (hs : m._size < cap) (v : T) :
    ∃ m1, push_back w m v = .ret m1 ⟨m._size, m._generation⟩ ∧ Packed m1 ∧
      m1._size = m._size + 1 ∧ m1._generation = (m._generation + 1) % 2 ^ w ∧
      m1._indices = Function.update m._indices ⟨m._size, hs⟩ ⟨m._size, m._generation⟩ ∧
      m1._data = Function.update m._data ⟨m._size, hs⟩ v := by
  obtain ⟨_, hfl, hid⟩ := hp
  obtain ⟨m1, hpush, h1, h2, h3, h4, h5, _⟩ :=
    push_back_fin w m v ⟨m._size, hs⟩ ⟨m._size, hs⟩ hfl.symm rfl
  have h1 : m1._size = m._size + 1 := by
    rw [h1]
    exact Nat.mod_eq_of_lt (by omega)
  refine ⟨m1, hpush, ⟨by omega, ?_, ?_⟩, h1, h3, h4, h5⟩
  · rw [h2, h1]
    exact hid ⟨m._size, hs⟩ (Nat.le_refl _)
  · intro i hi
    rw [h1] at hi
    have hne : i ≠ ⟨m._size, hs⟩ := by
      intro e
      rw [e] at hi
      simp only at hi
      omega
    rw [h4, Function.update_noteq hne]
    exact hid i (by omega)

theorem packed_clear (w : Nat) (hw : cap < 2 ^ w) (m : SlotMap T cap) (h0 : m._size = 0) :
    Packed (clear w m) := by
  refine ⟨?_, ?_, ?_⟩
  · show m._size ≤ cap
    omega
  · show 0 = m._size
    omega
  · intro i _
    rw [clear_indices]
    have := i.isLt
    exact Nat.mod_eq_of_lt (by omega)

theorem packed_fresh [Inhabited T] (w : Nat) (hw : cap < 2 ^ w) : Packed (fresh T cap w) :=
  packed_clear w hw (zeroed T cap) rfl

theorem pushSeq_packed_pair {w : Nat} (hw : cap < 2 ^ w) (vs : List T) :
    ∀ m1 m2 : SlotMap T cap, Packed m1 → Packed m2 → m1._size = m2._size →
      (∀ p : Fin cap, p.val < m1._size → m1._data p = m2._data p) →
      ∃ a b r1 r2, pushSeq w m1 vs = some (a, r1) ∧ pushSeq w m2 vs = some (b, r2) ∧
        r1.map (Option.map Key.id) = r2.map (Option.map Key.id) ∧ a._size = b._size ∧
        ∀ p : Fin cap, p.val < a._size → a._data p = b._data p := by
  induction vs with
  | nil =>
    intro m1 m2 _ _ hsz hdata
    exact ⟨m1, m2, [], [], rfl, rfl, rfl, hsz, hdata⟩
  | cons v vs ih =>
    intro m1 m2 hp1 hp2 hsz hdata
    by_cases hs : m1._size < cap
    · have hs2 : m2._size < cap := by omega
      obtain ⟨n1, hpush1, hpk1, hz1, _, _, hd1⟩ := packed_push hw hp1 hs v
      obtain ⟨n2, hpush2, hpk2, hz2, _, _, hd2⟩ := packed_push hw hp2 hs2 v
      have hdata2 : ∀ p : Fin cap, p.val < n1._size → n1._data p = n2._data p := by
        intro p hp
        rw [hd1, hd2]
        by_cases e : p.val = m1._size
        · have e1 : p = ⟨m1._size, hs⟩ := Fin.ext e
          have e2 : p = ⟨m2._size, hs2⟩ := Fin.ext (by rw [e, hsz])
          rw [Function.update_apply, Function.update_apply, if_pos e1, if_pos e2]
        · have e1 : p ≠ ⟨m1._size, hs⟩ := fun h => e (by rw [h])
          have e2 : p ≠ ⟨m2._size, hs2⟩ := fun h => e (by rw [h, hsz])
          rw [Function.update_noteq e1, Function.update_noteq e2]
          exact hdata p (by omega)
      obtain ⟨a, b, r1, r2, ha, hb, hids, hab, hd⟩ :=
        ih n1 n2 hpk1 hpk2 (by omega) hdata2
      refine ⟨a, b, some ⟨m1._size, m1._generation⟩ :: r1,
        some ⟨m2._size, m2._generation⟩ :: r2, ?_, ?_, ?_, hab, hd⟩
      · simp only [pushSeq, hpush1, ha]
        rfl
      · simp only [pushSeq, hpush2, hb]
        rfl
      · simp only [List.map_cons, Option.map_some', hids, hsz]
    · have hs2 : cap ≤ m2._size := by omega
      obtain ⟨a, b, r1, r2, ha, hb, hids, hab, hd⟩ := ih m1 m2 hp1 hp2 hsz hdata
      refine ⟨a, b, none :: r1, none :: r2, ?_, ?_, ?_, hab, hd⟩
      · simp only [pushSeq, push_back_eq_thrown w m1 v (Nat.not_lt.mp hs), ha]
        rfl
      · simp only [pushSeq, push_back_eq_thrown w m2 v hs2, hb]
        rfl
      · simp only [List.map_cons, Option.map_none', hids]

theorem pushSeq_packed_valid {w : Nat} (hw : cap < 2 ^ w) (vs : List T) :
    ∀ m : SlotMap T cap, Packed m →
      ∃ a r, pushSeq w m vs = some (a, r) ∧
        (∀ i : Fin cap, i.val < m._size → a._indices i = m._indices i) ∧
        ∀ k, some k ∈ r → is_key_valid a k = true := by
  induction vs with
  | nil =>
    intro m _
    exact ⟨m, [], rfl, fun _ _ => rfl, fun k hk => by cases hk⟩
  | cons v vs ih =>
    intro m hp
    by_cases hs : m._size < cap
    · obtain ⟨n, hpush, hpk, hz, _, hi, _⟩ := packed_push hw hp hs v
      obtain ⟨a, r, ha, hframe, hvalid⟩ := ih n hpk
      refine ⟨a, some ⟨m._size, m._generation⟩ :: r, ?_, ?_, ?_⟩
      · simp only [pushSeq, hpush, ha]
        rfl
      · intro i hlt
        have hne : i ≠ ⟨m._size, hs⟩ := by
          intro e
          rw [e] at hlt
          simp only at hlt
          omega
        rw [hframe i (by omega), hi, Function.update_noteq hne]
      · intro k hk
        rcases List.mem_cons.mp hk with e | hk
        · injection e with e
          subst e
          refine (is_key_valid_iff_fin a _).mpr ⟨⟨m._size, hs⟩, rfl, ?_⟩
          rw [hframe ⟨m._size, hs⟩ (by simp only; omega), hi, Function.update_same]
        · exact hvalid k hk
    · obtain ⟨a, r, ha, hframe, hvalid⟩ := ih m hp
      refine ⟨a, none :: r, ?_, hframe, ?_⟩
      · simp only [pushSeq, push_back_eq_thrown w m v (Nat.not_lt.mp hs), ha]
        rfl
      · intro k hk
        rcases List.mem_cons.mp hk with e | hk
        · cases e
        · exact hvalid k hk

theorem pushAll_packed {w : Nat} (hw : cap < 2 ^ w) (vs : List T) :
    ∀ m : SlotMap T cap, Packed m → m._generation = m._size → m._size + vs.length ≤ cap →
      ∃ a, pushAll w m vs =
        some (a, (List.range' m._size vs.length).map fun i => (⟨i, i⟩ : Key)) := by
  induction vs with
  | nil =>
    intro m _ _ _
    exact ⟨m, rfl⟩
  | cons v vs ih =>
    intro m hp hg hlen
    simp only [List.length_cons] at hlen
    have hs : m._size < cap := by omega
    obtain ⟨n, hpush, hpk, hz, hgn, _, _⟩ := packed_push hw hp hs v
    have hgn2 : n._generation = n._size := by
      rw [hgn, hz, hg]
      exact Nat.mod_eq_of_lt (by omega)
    obtain ⟨a, ha⟩ := ih n hpk hgn2 (by omega)
    refine ⟨a, ?_⟩
    simp only [pushAll, hpush, ha, List.length_cons, List.range'_succ, List.map_cons, hz, hg]
    rfl

theorem erase_ret_true_freelist {w : Nat} {m m1 : SlotMap T cap} {k : Key}
    (h : erase w m k = .ret m1 true) :
    k.id < cap ∧ m1._freelist = k.id ∧ m1._size = (m._size + 2 ^ w - 1) % 2 ^ w := by
  obtain ⟨hk, hg⟩ := (is_key_valid_iff m k).mp (erase_ret_true_valid h)
  by_cases hd : (m._indices ⟨k.id, hk⟩).id = (m._size + 2 ^ w - 1) % 2 ^ w
  · rw [erase_eq_ret_last w m k hk hg hd] at h
    injection h with hm
    subst hm
    exact ⟨hk, rfl, rfl⟩
  · by_cases hb : (m._indices ⟨k.id, hk⟩).id < cap ∧
        ∃ hl : (m._size + 2 ^ w - 1) % 2 ^ w < cap,
          m._erase ⟨(m._size + 2 ^ w - 1) % 2 ^ w, hl⟩ < cap
    · obtain ⟨hdc, hl, hmv⟩ := hb
      rw [erase_eq_ret_swap w m k hk hg hd hdc hl hmv] at h
      injection h with hm
      subst hm
      exact ⟨hk, rfl, rfl⟩
    · rw [erase_eq_undefined w m k hk hg hd hb] at h
      cases h

/-- After a successful `erase(k)` the next `push_back` is defined: it throws or it
returns a key on slot `k.id`. -/
theorem push_back_after_erase {w : Nat} {m m1 : SlotMap T cap} {k : Key} (v : T)
    (h : erase w m k = .ret m1 true) :
    push_back w m1 v = .thrown m1 ∨ ∃ m2 g, push_back w m1 v = .ret m2 ⟨k.id, g⟩ := by
  obtain ⟨hk, hfl, _⟩ := erase_ret_true_freelist h
  by_cases hs : cap ≤ m1._size
  · exact Or.inl (push_back_eq_thrown w m1 v hs)
  · right
    have hf : m1._freelist < cap := by rw [hfl]; exact hk
    have e := push_back_eq_ret w m1 v (Nat.not_le.mp hs) hf
    have ek : (⟨m1._freelist, m1._generation⟩ : Key) = ⟨k.id, m1._generation⟩ := by rw [hfl]
    rw [ek] at e
    exact ⟨_, _, e⟩

theorem runInv_erase_issued {w : Nat} {t : RunState T cap} (hw : cap < 2 ^ w)
    (inv : RunInv t) (k : Key) (hk : k ∈ t.issued) (hv : is_key_valid t.map k = true) :
    0 < t.map._size ∧ (∃ m1, erase w t.map k = .ret m1 true) ∧
      ∃ s d L : Fin cap, s.val = k.id ∧ d.val = (t.map._indices s).id ∧
        L.val + 1 = t.map._size ∧ t.map._erase L < cap := by
  have hke : k ∉ t.erased := fun hin => by
    rw [inv.erased_stale k hin] at hv
    cases hv
  obtain ⟨s, hsk, ⟨d, hd1, hd2, hd3⟩, hgs⟩ := inv.live_key k hk hke
  have hLlt : t.map._size - 1 < cap := by have := inv.size_le; omega
  have hL : (⟨t.map._size - 1, hLlt⟩ : Fin cap).val + 1 = t.map._size := by
    simp only
    omega
  generalize (⟨t.map._size - 1, hLlt⟩ : Fin cap) = L at hL
  obtain ⟨sL, hsL1, hsL2⟩ := inv.dense L (by omega)
  obtain ⟨m1, he, _⟩ :=
    erase_live_fin w t.map k hw inv.size_le s d L sL hsk hgs.symm hd1 hd2 hd3 hL hsL1 hsL2
  exact ⟨by omega, ⟨m1, he⟩, s, d, L, hsk, hd1, hL, by rw [← hsL1]; exact sL.isLt⟩

end SlotMap

theorem Outcome.eq_undefined_of_isUndefined {σ α : Type} {o : Outcome σ α}
    (h : o.isUndefined = true) : o = .undefined := by
  cases o with
  | ret s a => cases h
  | thrown s => cases h
  | undefined => rfl

theorem ceil_div_cases (size width : Nat) (hw : 0 < width) :
    (size + width - 1) / width = if size % width ≠ 0 then size / width + 1 else size / width := by
  have h := Nat.div_add_mod size width
  have hr := Nat.mod_lt size hw
  by_cases h0 : size % width = 0
  · rw [if_neg (by simpa using h0)]
    have e : size + width - 1 = (width - 1) + width * (size / width) := by
      rw [h0] at h
      omega
    rw [e, Nat.add_mul_div_left _ _ hw, Nat.div_eq_of_lt (by omega), Nat.zero_add]
  · rw [if_pos h0]
    have e : size + width - 1 = (size % width - 1) + width * (size / width + 1) := by
      rw [Nat.mul_add, Nat.mul_one]
      omega
    rw [e, Nat.add_mul_div_left _ _ hw, Nat.div_eq_of_lt (by omega), Nat.zero_add]

namespace SlotMap
variable {T : Type} {cap : Nat}

end SlotMap

/-! ## The claims -/

namespace SlotMap

variable {T : Type} {cap : Nat}

/-- C1: when `_size >= Capacity`, `push_back` throws and the state at the throw is the
state before the call, field for field. -/
theorem push_back_full_throws (w : Nat) (m : SlotMap T cap) (v : T) (h : cap ≤ m._size) :
    push_back w m v = .thrown m :=
  push_back_eq_thrown w m v h

theorem push_back_full_throws_witness :
    1 ≤ Examples.fullMap._size ∧
      push_back 64 Examples.fullMap 9 = .thrown Examples.fullMap :=
  ⟨by decide, push_back_full_throws 64 Examples.fullMap 9 (by decide)⟩

theorem demo_run : Run Nat 4 64 Examples.demo :=
  run_of_exec Examples.demoOps _ (by decide)

/-- C2: in a run from a fresh map by `push_back` and `erase` of returned keys whose
generation counter has not wrapped, a key whose `erase` returned `true` is rejected by
`is_key_valid` in every state the run reaches afterwards. -/
theorem erased_key_stays_invalid [Inhabited T] {w : Nat} {t : RunState T cap}
    (hw : cap < 2 ^ w) (hr : Run T cap w t) (hb : t.bumps < 2 ^ w) (k : Key)
    (hk : k ∈ t.erased) : is_key_valid t.map k = false :=
  (run_inv hw hr hb).erased_stale k hk

theorem erased_key_stays_invalid_witness :
    (⟨0, 0⟩ : Key) ∈ Examples.demo.erased ∧ (⟨0, 4⟩ : Key) ∈ Examples.demo.issued ∧
      is_key_valid Examples.demo.map ⟨0, 0⟩ = false :=
  ⟨by decide, by decide,
    erased_key_stays_invalid (by decide) demo_run (by decide) ⟨0, 0⟩ (by decide)⟩

/-- C3 as stated (no bound on the generation counter) fails: with an 8-bit index type the
run `swapOps` reaches a state with the two live keys `{1, 1}` and `{0, 6}` where
`erase({1, 1})` returns `true` and `{0, 6}`, which resolved to 15, resolves to 14. -/
theorem swap_erase_after_wrap :
    RunState.exec 8 Examples.swapOps (RunState.init Nat 4 8) = some Examples.swapState ∧
      Run Nat 4 8 Examples.swapState ∧
      (⟨1, 1⟩ : Key) ∈ Examples.swapState.issued ∧
      (⟨1, 1⟩ : Key) ∉ Examples.swapState.erased ∧
      (⟨0, 6⟩ : Key) ∈ Examples.swapState.issued ∧
      (⟨0, 6⟩ : Key) ∉ Examples.swapState.erased ∧
      erase 8 Examples.swapState.map ⟨1, 1⟩ = .ret Examples.swapMap1 true ∧
      is_key_valid Examples.swapState.map ⟨0, 6⟩ = true ∧
      resolve Examples.swapState.map ⟨0, 6⟩ = some 15 ∧
      resolve Examples.swapMap1 ⟨0, 6⟩ = some 14 :=
  ⟨exec_eq_some_getD _ _ _ (by decide!), run_of_exec Examples.swapOps _ (by decide!),
    by decide!, by decide!, by decide!, by decide!, Outcome.eq_ret_of_val _ (by decide!),
    by decide!, by decide!, by decide!⟩

/-- C3: in a state reached from a fresh map by `push_back` and `erase` of returned keys
without the generation counter wrapping, for two distinct live keys `k` and `j`,
`erase(k)` returns `true` and afterwards `j` is still valid and resolves to the value
it resolved to before. -/
theorem erase_keeps_other_live_key [Inhabited T] {w : Nat} {t : RunState T cap}
    (hw : cap < 2 ^ w) (hr : Run T cap w t) (hb : t.bumps < 2 ^ w) (k j : Key)
    (hk : k ∈ t.issued) (hke : k ∉ t.erased) (hj : j ∈ t.issued) (hje : j ∉ t.erased)
    (hkj : k ≠ j) :
    ∃ m1, erase w t.map k = .ret m1 true ∧ is_key_valid m1 j = true ∧
      resolve m1 j = resolve t.map j := by
  have inv := run_inv hw hr hb
  obtain ⟨s, hsk, ⟨d, hd1, hd2, hd3⟩, hgs⟩ := inv.live_key k hk hke
  obtain ⟨sj, hsj, ⟨pj, hp1, hp2, hp3⟩, hgj⟩ := inv.live_key j hj hje
  have hLlt : t.map._size - 1 < cap := by have := inv.size_le; omega
  have hL : (⟨t.map._size - 1, hLlt⟩ : Fin cap).val + 1 = t.map._size := by
    simp only
    omega
  generalize (⟨t.map._size - 1, hLlt⟩ : Fin cap) = L at hL
  obtain ⟨sL, hsL1, hsL2⟩ := inv.dense L (by omega)
  obtain ⟨m1, he, h1, h2, h3, h4, h5, h6⟩ :=
    erase_live_fin w t.map k hw inv.size_le s d L sL hsk hgs.symm hd1 hd2 hd3 hL hsL1 hsL2
  have hne : sj ≠ s := by
    intro e
    apply hkj
    rw [e] at hsj hgj
    cases j
    cases k
    simp only at hsj hgj hsk hgs
    simp only [Key.mk.injEq]
    omega
  have hpd : pj ≠ d := by
    intro e
    apply hne
    apply Fin.ext
    rw [← hp3, e, hd3]
  refine ⟨m1, he, ?_, ?_⟩
  · refine (is_key_valid_iff_fin m1 j).mpr ⟨sj, hsj, ?_⟩
    rw [h4, if_neg hne]
    split
    · exact hgj.symm
    · exact hgj.symm
  · rw [resolve_eq t.map j sj pj hsj hp1]
    by_cases e : sj = sL
    · have hpL : pj = L := Fin.ext (by rw [hp1, e, hsL2])
      rw [resolve_eq m1 j sj d hsj (by rw [h4, if_neg hne, if_pos e]), h5, if_pos rfl, hpL]
    · rw [resolve_eq m1 j sj pj hsj (by rw [h4, if_neg hne, if_neg e]; exact hp1), h5,
        if_neg hpd]

theorem erase_keeps_other_live_key_witness :
    ∃ m1, erase 64 Examples.demo.map ⟨1, 1⟩ = .ret m1 true ∧
      is_key_valid m1 ⟨0, 4⟩ = true ∧ resolve m1 ⟨0, 4⟩ = resolve Examples.demo.map ⟨0, 4⟩ :=
  erase_keeps_other_live_key (by decide) demo_run (by decide) ⟨1, 1⟩ ⟨0, 4⟩
    (by decide) (by decide) (by decide) (by decide) (by decide)

/-- C4: for a key that `is_key_valid` rejects, `erase` returns `false` and the state
after the call is the state before it. -/
theorem erase_invalid_noop (w : Nat) (m : SlotMap T cap) (k : Key)
    (h : is_key_valid m k = false) : erase w m k = .ret m false :=
  erase_eq_ret_false w m k h

theorem erase_invalid_noop_witness :
    is_key_valid Examples.onePushed ⟨10, 0⟩ = false ∧
      erase 64 Examples.onePushed ⟨10, 0⟩ = .ret Examples.onePushed false :=
  ⟨by decide, erase_invalid_noop 64 Examples.onePushed ⟨10, 0⟩ (by decide)⟩

/-- C5 as stated (no bound on the generation counter) fails: with an 8-bit index type the
run `stableOps` reaches a state with the live, valid key `{0, 2}` where `push_back`
succeeds, returns `{0, 3}`, and `{0, 2}` is no longer valid. -/
theorem push_back_after_wrap :
    RunState.exec 8 Examples.stableOps (RunState.init Nat 4 8) = some Examples.stableState ∧
      Run Nat 4 8 Examples.stableState ∧
      (⟨0, 2⟩ : Key) ∈ Examples.stableState.issued ∧
      (⟨0, 2⟩ : Key) ∉ Examples.stableState.erased ∧
      is_key_valid Examples.stableState.map ⟨0, 2⟩ = true ∧
      push_back 8 Examples.stableState.map 22 = .ret Examples.stableMap1 ⟨0, 3⟩ ∧
      is_key_valid Examples.stableMap1 ⟨0, 2⟩ = false :=
  ⟨exec_eq_some_getD _ _ _ (by decide!), run_of_exec Examples.stableOps _ (by decide!),
    by decide!, by decide!, by decide!, Outcome.eq_ret_of_val _ (by decide!), by decide!⟩

/-- C5: in a state reached from a fresh map by `push_back` and `erase` of returned keys
without the generation counter wrapping, `push_back(v)` either returns a key that is
valid at once and resolves to `v`, or throws; either way every live key is still
valid afterwards and resolves to the value it resolved to before. -/
theorem push_back_keeps_live_keys [Inhabited T] {w : Nat} {t : RunState T cap}
    (hw : cap < 2 ^ w) (hr : Run T cap w t) (hb : t.bumps < 2 ^ w) (v : T) :
    ∃ m1, ((∃ k, push_back w t.map v = .ret m1 k ∧ is_key_valid m1 k = true ∧
          resolve m1 k = some v) ∨ push_back w t.map v = .thrown m1) ∧
      ∀ j ∈ t.issued, j ∉ t.erased →
        is_key_valid m1 j = true ∧ resolve m1 j = resolve t.map j := by
  have inv := run_inv hw hr hb
  by_cases hs : t.map._size < cap
  · obtain ⟨s, hs1, hns⟩ := runInv_freelist_head inv hs
    obtain ⟨m1, hpush, _, _, _, h4, h5, _⟩ :=
      push_back_fin w t.map v s ⟨t.map._size, hs⟩ hs1 rfl
    refine ⟨m1, Or.inl ⟨_, hpush, ?_, ?_⟩, ?_⟩
    · exact (is_key_valid_iff_fin m1 _).mpr ⟨s, rfl, by rw [h4, Function.update_same]⟩
    · rw [resolve_eq m1 _ s ⟨t.map._size, hs⟩ rfl (by rw [h4, Function.update_same]), h5,
        Function.update_same]
    · intro j hj hje
      obtain ⟨sj, hsj, ⟨pj, hp1, hp2, hp3⟩, hgj⟩ := inv.live_key j hj hje
      have hne : sj ≠ s := fun e => hns (e ▸ ⟨pj, hp1, hp2, hp3⟩)
      have hpne : pj ≠ ⟨t.map._size, hs⟩ := by
        intro e
        rw [e] at hp2
        simp only at hp2
        omega
      refine ⟨(is_key_valid_iff_fin m1 j).mpr
        ⟨sj, hsj, by rw [h4, Function.update_noteq hne]; exact hgj.symm⟩, ?_⟩
      rw [resolve_eq t.map j sj pj hsj hp1,
        resolve_eq m1 j sj pj hsj (by rw [h4, Function.update_noteq hne]; exact hp1), h5,
        Function.update_noteq hpne]
  · refine ⟨t.map, Or.inr (push_back_eq_thrown w t.map v (Nat.not_lt.mp hs)), ?_⟩
    intro j hj hje
    obtain ⟨sj, hsj, _, hgj⟩ := inv.live_key j hj hje
    exact ⟨(is_key_valid_iff_fin t.map j).mpr ⟨sj, hsj, hgj.symm⟩, rfl⟩

theorem push_back_keeps_live_keys_witness :
    ∃ m1, ((∃ k, push_back 64 Examples.demo.map 50 = .ret m1 k ∧ is_key_valid m1 k = true ∧
          resolve m1 k = some 50) ∨ push_back 64 Examples.demo.map 50 = .thrown m1) ∧
      ∀ j ∈ Examples.demo.issued, j ∉ Examples.demo.erased →
        is_key_valid m1 j = true ∧ resolve m1 j = resolve Examples.demo.map j :=
  push_back_keeps_live_keys (by decide) demo_run (by decide) 50

/-- C6: on a fresh map of capacity `N` (a value of the index type), `N` consecutive
`push_back` calls all succeed, the next one throws leaving the map as it was, and then
`size()` is `N` and each of the `N` returned keys is valid. -/
theorem capacity_bound [Inhabited T] {w : Nat} (hw : cap < 2 ^ w) (vs : List T)
    (hlen : vs.length = cap) (v : T) :
    ∃ m ks, pushAll w (fresh T cap w) vs = some (m, ks) ∧ ks.length = cap ∧
      push_back w m v = .thrown m ∧ size m = cap ∧ ∀ k ∈ ks, is_key_valid m k = true := by
  obtain ⟨m, ks, hpa, hkl, hrun, hsize⟩ :=
    pushAll_run hw vs (RunState.init T cap w) Run.fresh rfl
      (by simp only [RunState.init]; omega)
      (by show 0 + vs.length ≤ cap; omega)
  have hsize : m._size = cap := by
    rw [hsize]
    show 0 + vs.length = cap
    omega
  have inv := run_inv hw hrun (by simp only [RunState.init]; omega)
  refine ⟨m, ks, hpa, by rw [hkl, hlen], push_back_eq_thrown w m v (by omega), hsize, ?_⟩
  intro k hk
  obtain ⟨s, hs, _, hg⟩ := inv.live_key k (by simp [RunState.init, hk]) (by simp)
  exact (is_key_valid_iff_fin m k).mpr ⟨s, hs, hg.symm⟩

theorem capacity_bound_witness :
    ∃ m ks, pushAll 64 (fresh Nat 3 64) [10, 20, 30] = some (m, ks) ∧ ks.length = 3 ∧
      push_back 64 m 40 = .thrown m ∧ size m = 3 ∧ ∀ k ∈ ks, is_key_valid m k = true :=
  capacity_bound (by decide) [10, 20, 30] (by decide) 40

/-- C7: on a freshly constructed map of capacity 10 the never issued key `{0, 0}` is
accepted by `is_key_valid`, and `erase` of it reads `_data[_size - 1]` with
`_size = 0`, outside the array. -/
theorem erase_fresh_zero_key_undefined :
    is_key_valid (fresh Nat 10 64) ⟨0, 0⟩ = true ∧
      erase 64 (fresh Nat 10 64) ⟨0, 0⟩ = .undefined :=
  ⟨by decide, rfl⟩

/-- C8: `clear()` leaves `_size` as it was; after one `push_back` on a fresh map of
capacity 10 and a `clear()`, `size()` is 1. -/
theorem clear_keeps_size :
    push_back 64 (fresh Nat 10 64) 7 = .ret Examples.onePushed ⟨0, 0⟩ ∧
      size (clear 64 Examples.onePushed) = 1 :=
  ⟨rfl, by decide⟩

/-- C9 as stated (every state reachable through the public members) fails. With an 8-bit
index type the run `twiceOps` increments the generation counter 256 times, back to 0,
while the key `{0, 0}` is live; `erase({0, 0})` then returns `true` twice in a row. And
on a fresh map with a 32-bit index type and capacity 2^32 - 1, `erase` of the never
issued key `{2^32 - 2, 0}` returns `true` twice in a row. -/
theorem double_erase_true_twice :
    (RunState.exec 8 Examples.twiceOps (RunState.init Nat 3 8) = some Examples.twiceState ∧
      ApiReach Nat 3 8 Examples.twiceState.map 256 ∧
      erase 8 Examples.twiceState.map ⟨0, 0⟩ = .ret Examples.twiceMap1 true ∧
      erase 8 Examples.twiceMap1 ⟨0, 0⟩ = .ret Examples.twiceMap2 true ∧
      erase 8 Examples.twiceMap1 ⟨0, 0⟩ ≠ .ret Examples.twiceMap1 false) ∧
    (ApiReach Nat 4294967295 32 (fresh Nat 4294967295 32) 0 ∧
      ∃ m1 m2 : SlotMap Nat 4294967295,
        erase 32 (fresh Nat 4294967295 32) ⟨4294967294, 0⟩ = .ret m1 true ∧
        erase 32 m1 ⟨4294967294, 0⟩ = .ret m2 true) :=
  ⟨⟨exec_eq_some_getD _ _ _ (by decide!),
    run_api (run_of_exec Examples.twiceOps _ (by decide!)),
    Outcome.eq_ret_of_val _ (by decide!), Outcome.eq_ret_of_val _ (by decide!),
    fun h => by
      rw [Outcome.eq_ret_of_val (o := erase 8 Examples.twiceMap1 ⟨0, 0⟩)
        Examples.twiceMap1 (a := true) (by decide!)] at h
      cases h⟩,
    ApiReach.fresh, erase_fresh_top_twice 32 (by norm_num) (by norm_num)⟩

/-- C9: in a state reached through the public members (called with any arguments)
without the generation counter wrapping, on a map whose capacity is below the largest
index value, if `erase(k)` returns `true` then the next `erase(k)` returns `false` and
leaves the map as it is. -/
theorem double_erase_returns_false [Inhabited T] {w : Nat} {m : SlotMap T cap} {b : Nat}
    (hw : cap + 1 < 2 ^ w) (hr : ApiReach T cap w m b) (hb : b < 2 ^ w) (k : Key)
    (m1 : SlotMap T cap) (h : erase w m k = .ret m1 true) :
    erase w m1 k = .ret m1 false := by
  obtain ⟨hg, hst⟩ := api_gen_inv hr hb
  obtain ⟨s, hs, hkg, _, h2, _, hlast⟩ := erase_ret_true_inv h
  apply erase_eq_ret_false
  rcases hst with hst | ⟨hz, hst⟩
  · by_contra hv
    have hv : is_key_valid m1 k = true := by simpa using hv
    obtain ⟨s1, hs1, hg1⟩ := (is_key_valid_iff_fin m1 k).mp hv
    have e : s1 = s := Fin.ext (by rw [hs1, hs])
    rw [e, h2] at hg1
    have := hst s
    omega
  · exfalso
    have hpos := Nat.two_pow_pos w
    have hslt := s.isLt
    have e1 : (m._size + 2 ^ w - 1) % 2 ^ w = 2 ^ w - 1 := by
      rw [hz, Nat.zero_add]
      exact Nat.mod_eq_of_lt (by omega)
    have e2 : (m._indices s).id = s.val + 1 := by
      rw [hst s]
      exact Nat.mod_eq_of_lt (by omega)
    rw [e1, e2] at hlast
    omega

theorem double_erase_returns_false_witness :
    erase 64 Examples.demo.map ⟨1, 1⟩ = .ret Examples.demoErased true ∧
      erase 64 Examples.demoErased ⟨1, 1⟩ = .ret Examples.demoErased false :=
  ⟨Outcome.eq_ret_of_val _ (by decide),
    double_erase_returns_false (by decide) (run_api demo_run) (by decide) ⟨1, 1⟩
      Examples.demoErased (Outcome.eq_ret_of_val _ (by decide))⟩

/-- C10: in a run from a fresh map by `push_back` and `erase` of returned keys whose
generation counter has not wrapped, the live keys have pairwise different slot ids and
the keys returned by `push_back` are pairwise different. -/
theorem keys_unique_under_churn [Inhabited T] {w : Nat} {t : RunState T cap}
    (hw : cap < 2 ^ w) (hr : Run T cap w t) (hb : t.bumps < 2 ^ w) :
    (t.liveKeys.map Key.id).Nodup ∧ t.issued.Nodup := by
  have inv := run_inv hw hr hb
  have hnd := run_issued_nodup hw hr hb
  refine ⟨?_, hnd⟩
  refine List.Nodup.map_on ?_ (hnd.filter _)
  intro x hx y hy hxy
  simp only [RunState.liveKeys, List.mem_filter, decide_eq_true_eq] at hx hy
  obtain ⟨sx, hsx, _, hgx⟩ := inv.live_key x hx.1 hx.2
  obtain ⟨sy, hsy, _, hgy⟩ := inv.live_key y hy.1 hy.2
  have e : sx = sy := Fin.ext (by rw [hsx, hsy, hxy])
  rw [e] at hgx
  cases x
  cases y
  simp only at hxy hgx hgy
  simp only [Key.mk.injEq]
  omega

theorem keys_unique_under_churn_witness :
    (Examples.demo.liveKeys.map Key.id).Nodup ∧ Examples.demo.issued.Nodup :=
  keys_unique_under_churn (by decide) demo_run (by decide)

/-- C11 as stated (no bound on the generation counter) fails: with an 8-bit index type the
run `stableOps` reaches a state whose free-list head is slot 0 while `{0, 2}`, a key
returned by `push_back` and not erased, has slot id 0; no list of slots starting at the
head consists of the slots that are not live. -/
theorem free_list_after_wrap :
    RunState.exec 8 Examples.stableOps (RunState.init Nat 4 8) = some Examples.stableState ∧
      Run Nat 4 8 Examples.stableState ∧
      Examples.stableState.map._freelist = 0 ∧
      (⟨0, 2⟩ : Key) ∈ Examples.stableState.issued ∧
      (⟨0, 2⟩ : Key) ∉ Examples.stableState.erased ∧
      ¬ ∃ fl : List (Fin 4),
        FreeChain Examples.stableState.map fl Examples.stableState.map._freelist ∧
        ∀ s : Fin 4, s ∈ fl ↔
          ¬ ∃ k ∈ Examples.stableState.issued, k ∉ Examples.stableState.erased ∧ k.id = s.val := by
  have hfl : Examples.stableState.map._freelist = 0 := by decide!
  have hk1 : (⟨0, 2⟩ : Key) ∈ Examples.stableState.issued := by decide!
  have hk2 : (⟨0, 2⟩ : Key) ∉ Examples.stableState.erased := by decide!
  refine ⟨exec_eq_some_getD _ _ _ (by decide!), run_of_exec Examples.stableOps _ (by decide!),
    hfl, hk1, hk2, ?_⟩
  rintro ⟨fl, hchain, hmem⟩
  rw [hfl] at hchain
  cases fl with
  | nil =>
    simp only [FreeChain] at hchain
    omega
  | cons s l =>
    obtain ⟨hs, _⟩ := hchain
    exact (hmem s).mp (List.mem_cons_self _ _) ⟨⟨0, 2⟩, hk1, hk2, hs⟩

/-- C11: in a state reached from a fresh map by `push_back` and `erase` of returned keys
without the generation counter wrapping, the free list followed from `_freelist`
through `_indices[..].id` is a list without repetition of `Capacity - _size` slots, they
are exactly the slots that are not the id of a live key, and the last link is the
sentinel `Capacity`; `_freelist == Capacity` exactly when `_size == Capacity`. -/
theorem free_list_visits_free_slots [Inhabited T] {w : Nat} {t : RunState T cap}
    (hw : cap < 2 ^ w) (hr : Run T cap w t) (hb : t.bumps < 2 ^ w) :
    (∃ fl : List (Fin cap), FreeChain t.map fl t.map._freelist ∧ fl.Nodup ∧
        fl.length = cap - t.map._size ∧
        ∀ s : Fin cap, s ∈ fl ↔ ¬ ∃ k ∈ t.issued, k ∉ t.erased ∧ k.id = s.val) ∧
      (t.map._freelist = cap ↔ t.map._size = cap) := by
  have inv := run_inv hw hr hb
  obtain ⟨fl, hchain, hnd, hmem, hlen⟩ := inv.free
  have hlive : ∀ s : Fin cap, Live t.map s ↔ ∃ k ∈ t.issued, k ∉ t.erased ∧ k.id = s.val := by
    intro s
    constructor
    · exact inv.live_slot s
    · rintro ⟨k, hk1, hk2, hk3⟩
      obtain ⟨s1, hs1, hl, _⟩ := inv.live_key k hk1 hk2
      have e : s1 = s := Fin.ext (by rw [hs1, hk3])
      rw [← e]
      exact hl
  refine ⟨⟨fl, hchain, hnd, by omega, fun s => by rw [hmem s, hlive s]⟩, ?_⟩
  cases fl with
  | nil =>
    simp only [FreeChain] at hchain
    simp only [List.length_nil] at hlen
    constructor
    · intro _
      omega
    · intro _
      exact hchain
  | cons s l =>
    obtain ⟨hs, _⟩ := hchain
    simp only [List.length_cons] at hlen
    have := s.isLt
    constructor
    · intro h
      omega
    · intro h
      omega

theorem free_list_visits_free_slots_witness :
    (∃ fl : List (Fin 4), FreeChain Examples.demo.map fl Examples.demo.map._freelist ∧
        fl.Nodup ∧ fl.length = 4 - Examples.demo.map._size ∧
        ∀ s : Fin 4, s ∈ fl ↔
          ¬ ∃ k ∈ Examples.demo.issued, k ∉ Examples.demo.erased ∧ k.id = s.val) ∧
      (Examples.demo.map._freelist = 4 ↔ Examples.demo.map._size = 4) :=
  free_list_visits_free_slots (by decide) demo_run (by decide)

/-- C12 as stated (no bound on the generation counter) fails: with an 8-bit index type the
run `denseOps` reaches a state where `_size` is 0 while `{1, 1}`, a key returned by
`push_back` and not erased, is still accepted and `_indices[1].id` is 2. -/
theorem dense_after_wrap :
    RunState.exec 8 Examples.denseOps (RunState.init Nat 4 8) = some Examples.denseState ∧
      Run Nat 4 8 Examples.denseState ∧
      (⟨1, 1⟩ : Key) ∈ Examples.denseState.issued ∧
      (⟨1, 1⟩ : Key) ∉ Examples.denseState.erased ∧
      is_key_valid Examples.denseState.map ⟨1, 1⟩ = true ∧
      Examples.denseState.map._size = 0 ∧
      (Examples.denseState.map._indices 1).id = 2 :=
  ⟨exec_eq_some_getD _ _ _ (by decide!), run_of_exec Examples.denseOps _ (by decide!),
    by decide!, by decide!, by decide!, by decide!, by decide!⟩

/-- C12: in a state reached from a fresh map by `push_back` and `erase` of returned keys
without the generation counter wrapping, every live key `k` has
`_indices[k.id].id < _size` and `_erase[_indices[k.id].id] == k.id`; and for every dense
position `p < _size`, `_erase[p]` is the slot id of a live key and
`_indices[_erase[p]].id == p`. -/
theorem dense_indirection_consistent [Inhabited T] {w : Nat} {t : RunState T cap}
    (hw : cap < 2 ^ w) (hr : Run T cap w t) (hb : t.bumps < 2 ^ w) :
    (∀ k ∈ t.issued, k ∉ t.erased →
        ∃ s p : Fin cap, s.val = k.id ∧ p.val = (t.map._indices s).id ∧
          p.val < t.map._size ∧ t.map._erase p = k.id) ∧
      (∀ p : Fin cap, p.val < t.map._size →
        (∃ k ∈ t.issued, k ∉ t.erased ∧ k.id = t.map._erase p) ∧
          ∃ s : Fin cap, s.val = t.map._erase p ∧ (t.map._indices s).id = p.val) := by
  have inv := run_inv hw hr hb
  constructor
  · intro k hk hke
    obtain ⟨s, hs, ⟨p, hp1, hp2, hp3⟩, _⟩ := inv.live_key k hk hke
    exact ⟨s, p, hs, hp1, hp2, by rw [hp3, hs]⟩
  · intro p hp
    obtain ⟨s, hs1, hs2⟩ := inv.dense p hp
    obtain ⟨k, hk1, hk2, hk3⟩ := inv.live_slot s ⟨p, hs2.symm, hp, hs1.symm⟩
    exact ⟨⟨k, hk1, hk2, by rw [hk3, hs1]⟩, s, hs1, hs2⟩

theorem dense_indirection_consistent_witness :
    (∀ k ∈ Examples.demo.issued, k ∉ Examples.demo.erased →
        ∃ s p : Fin 4, s.val = k.id ∧ p.val = (Examples.demo.map._indices s).id ∧
          p.val < Examples.demo.map._size ∧ Examples.demo.map._erase p = k.id) ∧
      (∀ p : Fin 4, p.val < Examples.demo.map._size →
        (∃ k ∈ Examples.demo.issued, k ∉ Examples.demo.erased ∧
            k.id = Examples.demo.map._erase p) ∧
          ∃ s : Fin 4, s.val = Examples.demo.map._erase p ∧
            (Examples.demo.map._indices s).id = p.val) :=
  dense_indirection_consistent (by decide) demo_run (by decide)

theorem abcde_run : Run Char 10 64 Examples.abcde :=
  run_of_exec Examples.abcdeOps _ (by decide!)

/-- C13 as stated (no bound on the generation counter) fails: with an 8-bit index type the
run `staleOps` reaches a state where `{0, 2}`, a key returned by `push_back` and not
erased, is rejected: `erase({0, 2})` returns `false` and removes nothing. -/
theorem erase_live_key_after_wrap :
    RunState.exec 8 Examples.staleOps (RunState.init Nat 4 8) = some Examples.staleState ∧
      Run Nat 4 8 Examples.staleState ∧
      (⟨0, 2⟩ : Key) ∈ Examples.staleState.issued ∧
      (⟨0, 2⟩ : Key) ∉ Examples.staleState.erased ∧
      erase 8 Examples.staleState.map ⟨0, 2⟩ = .ret Examples.staleState.map false :=
  ⟨exec_eq_some_getD _ _ _ (by decide!), run_of_exec Examples.staleOps _ (by decide!),
    by decide!, by decide!, erase_eq_ret_false _ _ _ (by decide!)⟩

/-- C13: in a state reached from a fresh map by `push_back` and `erase` of returned keys
without the generation counter wrapping, for every live key `k`, `erase(k)` returns
`true`, `_size` decreases by exactly 1, `k` is no longer valid, and the values that
iteration yields before are, as a multiset, the values it yields afterwards plus the
value `k` resolved to. -/
theorem erase_removes_one [Inhabited T] {w : Nat} {t : RunState T cap}
    (hw : cap < 2 ^ w) (hr : Run T cap w t) (hb : t.bumps < 2 ^ w) (k : Key)
    (hk : k ∈ t.issued) (hke : k ∉ t.erased) :
    ∃ m1 v, erase w t.map k = .ret m1 true ∧ m1._size + 1 = t.map._size ∧
      is_key_valid m1 k = false ∧ resolve t.map k = some v ∧
      (values t.map).Perm (v :: values m1) := by
  have inv := run_inv hw hr hb
  obtain ⟨s, hsk, ⟨d, hd1, hd2, hd3⟩, hgs⟩ := inv.live_key k hk hke
  have hLlt : t.map._size - 1 < cap := by have := inv.size_le; omega
  have hL : (⟨t.map._size - 1, hLlt⟩ : Fin cap).val + 1 = t.map._size := by
    simp only
    omega
  generalize (⟨t.map._size - 1, hLlt⟩ : Fin cap) = L at hL
  obtain ⟨sL, hsL1, hsL2⟩ := inv.dense L (by omega)
  obtain ⟨m1, he, h1, h2, h3, h4, h5, h6⟩ :=
    erase_live_fin w t.map k hw inv.size_le s d L sL hsk hgs.symm hd1 hd2 hd3 hL hsL1 hsL2
  refine ⟨m1, t.map._data d, he, by omega, ?_, resolve_eq t.map k s d hsk hd1, ?_⟩
  · by_contra hv
    have hv : is_key_valid m1 k = true := by simpa using hv
    obtain ⟨s1, hs1, hg1⟩ := (is_key_valid_iff_fin m1 k).mp hv
    have e : s1 = s := Fin.ext (by rw [hs1, hsk])
    rw [e, h4, if_pos rfl] at hg1
    have h7 := inv.issued_gen k hk
    have h8 := inv.gen_eq
    simp only at hg1
    omega
  · have hv : values t.map = firstN t.map._data L.val ++ [t.map._data L] := by
      rw [values, ← hL, firstN_succ]
    have hv1 : values m1 = firstN m1._data L.val := by
      rw [values, h1]
    rw [hv, hv1]
    by_cases e : d = L
    · have hc : firstN m1._data L.val = firstN t.map._data L.val := by
        apply firstN_congr
        intro p hp
        rw [h5, if_neg]
        intro e2
        rw [e2, e] at hp
        omega
      rw [hc, e]
      exact List.perm_append_singleton _ _
    · have hdL : d.val < L.val := by
        have : d.val ≠ L.val := fun h => e (Fin.ext h)
        omega
      have p1 := firstN_replace_perm (f := t.map._data) (g := m1._data) (d := d)
        (x := t.map._data L) L.val hdL h5
      exact (List.perm_append_singleton _ _).trans p1.symm

theorem erase_removes_one_witness :
    (∃ m1 v, erase 64 Examples.abcde.map ⟨2, 2⟩ = .ret m1 true ∧
        m1._size + 1 = Examples.abcde.map._size ∧ is_key_valid m1 ⟨2, 2⟩ = false ∧
        resolve Examples.abcde.map ⟨2, 2⟩ = some v ∧
        (values Examples.abcde.map).Perm (v :: values m1)) ∧
      erase 64 Examples.abcde.map ⟨2, 2⟩ = .ret Examples.abcdeErased true ∧
      resolve Examples.abcde.map ⟨2, 2⟩ = some 'C' ∧
      size Examples.abcdeErased = 4 ∧
      is_key_valid Examples.abcdeErased ⟨2, 2⟩ = false ∧
      is_key_valid Examples.abcdeErased ⟨0, 0⟩ = true ∧
      is_key_valid Examples.abcdeErased ⟨1, 1⟩ = true ∧
      is_key_valid Examples.abcdeErased ⟨3, 3⟩ = true ∧
      is_key_valid Examples.abcdeErased ⟨4, 4⟩ = true ∧
      values Examples.abcdeErased = ['A', 'B', 'E', 'D'] := by
  have hb : Examples.abcde.bumps < 2 ^ 64 := by decide!
  have hk : (⟨2, 2⟩ : Key) ∈ Examples.abcde.issued := by decide!
  have hke : (⟨2, 2⟩ : Key) ∉ Examples.abcde.erased := by decide!
  have h1 : erase 64 Examples.abcde.map ⟨2, 2⟩ = .ret Examples.abcdeErased true :=
    Outcome.eq_ret_of_val _ (by decide!)
  have h2 : resolve Examples.abcde.map ⟨2, 2⟩ = some 'C' := by decide!
  have h3 : size Examples.abcdeErased = 4 := by decide!
  have h4 : is_key_valid Examples.abcdeErased ⟨2, 2⟩ = false := by decide!
  have h5 : is_key_valid Examples.abcdeErased ⟨0, 0⟩ = true := by decide!
  have h6 : is_key_valid Examples.abcdeErased ⟨1, 1⟩ = true := by decide!
  have h7 : is_key_valid Examples.abcdeErased ⟨3, 3⟩ = true := by decide!
  have h8 : is_key_valid Examples.abcdeErased ⟨4, 4⟩ = true := by decide!
  have h9 : values Examples.abcdeErased = ['A', 'B', 'E', 'D'] := by decide!
  exact ⟨erase_removes_one (t := Examples.abcde) (by decide) abcde_run hb ⟨2, 2⟩ hk hke,
    h1, h2, h3, h4, h5, h6, h7, h8, h9⟩

/-- C14: in any state with `_size < Capacity` and free-list head `s < Capacity`,
`push_back(v)` returns `{s, g}` with `g` the generation counter before the call;
afterwards `_indices[s]` is `{size_before, g}`, `_data[size_before]` is `v`,
`_erase[size_before]` is `s`, `_freelist` is the old `_indices[s].id`, `_size` is
`size_before + 1`, `_generation` is `g + 1` (in `gen_t`, so modulo `2 ^ w`), and no other
entry of the three arrays has changed. -/
theorem push_back_postcondition (w : Nat) (m : SlotMap T cap) (v : T) (hw : cap < 2 ^ w)
    (hs : m._size < cap) (hf : m._freelist < cap) :
    ∃ m1, push_back w m v = .ret m1 ⟨m._freelist, m._generation⟩ ∧
      m1._indices ⟨m._freelist, hf⟩ = ⟨m._size, m._generation⟩ ∧
      m1._data ⟨m._size, hs⟩ = v ∧ m1._erase ⟨m._size, hs⟩ = m._freelist ∧
      m1._freelist = (m._indices ⟨m._freelist, hf⟩).id ∧
      m1._size = m._size + 1 ∧
      m1._generation = (m._generation + 1) % 2 ^ w ∧
      (m._generation + 1 < 2 ^ w → m1._generation = m._generation + 1) ∧
      (∀ i : Fin cap, i ≠ ⟨m._freelist, hf⟩ → m1._indices i = m._indices i) ∧
      (∀ p : Fin cap, p ≠ ⟨m._size, hs⟩ →
        m1._data p = m._data p ∧ m1._erase p = m._erase p) := by
  refine ⟨_, push_back_eq_ret w m v hs hf, ?_, ?_, ?_, rfl, ?_, rfl, ?_, ?_, ?_⟩
  · exact Function.update_same _ _ _
  · exact Function.update_same _ _ _
  · exact Function.update_same _ _ _
  · exact Nat.mod_eq_of_lt (by omega)
  · intro h
    exact Nat.mod_eq_of_lt h
  · intro i hi
    exact Function.update_noteq hi _ _
  · intro p hp
    exact ⟨Function.update_noteq hp _ _, Function.update_noteq hp _ _⟩


theorem push_back_postcondition_witness :
    ∃ m1, push_back 64 Examples.demo.map 50 = .ret m1 ⟨3, 5⟩ ∧
      m1._size = 4 ∧ m1._generation = 6 := by
  have hs : Examples.demo.map._size < 4 := by decide!
  have hf : Examples.demo.map._freelist < 4 := by decide!
  have e1 : Examples.demo.map._freelist = 3 := by decide!
  have e2 : Examples.demo.map._generation = 5 := by decide!
  have e3 : Examples.demo.map._size = 3 := by decide!
  obtain ⟨m1, h1, _, _, _, _, h6, h7, _⟩ :=
    push_back_postcondition 64 Examples.demo.map 50 (by decide) hs hf
  rw [e1, e2] at h1
  rw [e3] at h6
  rw [e2] at h7
  exact ⟨m1, h1, h6, h7⟩

theorem emptied_run : Run Nat 4 64 Examples.emptied :=
  run_of_exec Examples.emptiedOps _ (by decide!)

/-- C15 as stated fails on the returned keys: after one insertion and the erase of its key
(the map is empty, `_size` is 0, the generation counter is 2), `clear()` followed by
`push_back(9)` returns the key `{0, 2}`, while a fresh map returns `{0, 0}`. -/
theorem clear_then_push_other_key :
    ApiReach Nat 4 64 Examples.emptied.map 2 ∧
      Examples.emptied.map._size = 0 ∧
      (pushSeq 64 (clear 64 Examples.emptied.map) [9]).map Prod.snd = some [some ⟨0, 2⟩] ∧
      (pushSeq 64 (fresh Nat 4 64) [9]).map Prod.snd = some [some ⟨0, 0⟩] :=
  ⟨run_api emptied_run, by decide!, by decide!, by decide!⟩

/-- C15: for every state with `size() == 0` and every list of values, `clear()` followed
by `push_back` of each value agrees with a fresh map given the same `push_back` calls
on which calls succeed, on the slot ids of the returned keys, on `size()`, on the
iterated values, and on the validity of each returned key at the end. -/
theorem clear_then_push_same_slots [Inhabited T] {w : Nat} (hw : cap < 2 ^ w)
    (m : SlotMap T cap) (h0 : m._size = 0) (vs : List T) :
    ∃ a b r1 r2, pushSeq w (clear w m) vs = some (a, r1) ∧
      pushSeq w (fresh T cap w) vs = some (b, r2) ∧
      r1.map (Option.map Key.id) = r2.map (Option.map Key.id) ∧
      size a = size b ∧ values a = values b ∧
      (∀ k, some k ∈ r1 → is_key_valid a k = true) ∧
      (∀ k, some k ∈ r2 → is_key_valid b k = true) := by
  have hp1 := packed_clear w hw m h0
  have hp2 : Packed (fresh T cap w) := packed_fresh w hw
  have hz : (clear w m)._size = (fresh T cap w)._size := h0
  obtain ⟨a, b, r1, r2, ha, hb, hids, hab, hd⟩ :=
    pushSeq_packed_pair hw vs (clear w m) (fresh T cap w) hp1 hp2 hz
      (fun p hp => by
        have : (clear w m)._size = 0 := h0
        omega)
  obtain ⟨a1, s1, ha1, _, hv1⟩ := pushSeq_packed_valid hw vs (clear w m) hp1
  obtain ⟨b1, s2, hb1, _, hv2⟩ := pushSeq_packed_valid hw vs (fresh T cap w) hp2
  rw [ha] at ha1
  rw [hb] at hb1
  injection ha1 with ha1
  injection hb1 with hb1
  injection ha1 with e1 e2
  injection hb1 with e3 e4
  subst e1 e2 e3 e4
  refine ⟨a, b, r1, r2, ha, hb, hids, hab, ?_, hv1, hv2⟩
  rw [values, values, hab]
  exact firstN_congr _ (fun p hp => hd p (by omega))

theorem clear_then_push_same_slots_witness :
    ∃ a b r1 r2, pushSeq 64 (clear 64 Examples.emptied.map) [9, 8] = some (a, r1) ∧
      pushSeq 64 (fresh Nat 4 64) [9, 8] = some (b, r2) ∧
      r1.map (Option.map Key.id) = r2.map (Option.map Key.id) ∧
      size a = size b ∧ values a = values b ∧
      (∀ k, some k ∈ r1 → is_key_valid a k = true) ∧
      (∀ k, some k ∈ r2 → is_key_valid b k = true) :=
  clear_then_push_same_slots (by decide) Examples.emptied.map (by decide!) [9, 8]

/-- C16 as stated fails: after `demoOps` the generation counter is 5; `erase({1, 1})`
returns `true`, the counter is 6 and `_indices[1].generation` is 5, the value before the
increment. -/
theorem erase_stamp_is_old_generation :
    erase 64 Examples.demo.map ⟨1, 1⟩ = .ret Examples.demoErased true ∧
      Examples.demo.map._generation = 5 ∧
      Examples.demoErased._generation = 6 ∧
      (Examples.demoErased._indices 1).generation = 5 :=
  ⟨Outcome.eq_ret_of_val _ (by decide!), by decide!, by decide!, by decide!⟩

/-- C16: in any state, when `erase(k)` returns `true` the generation counter has been
incremented by 1 (in `gen_t`) and `_indices[k.id].generation` is the value the counter
had before the increment. -/
theorem erase_stamps_generation (w : Nat) (m m1 : SlotMap T cap) (k : Key)
    (h : erase w m k = .ret m1 true) :
    m1._generation = (m._generation + 1) % 2 ^ w ∧
      ∃ s : Fin cap, s.val = k.id ∧ (m1._indices s).generation = m._generation := by
  obtain ⟨s, hs, _, h1, h2, _⟩ := erase_ret_true_inv h
  exact ⟨h1, s, hs, h2⟩

theorem erase_stamps_generation_witness :
    Examples.demoErased._generation = (Examples.demo.map._generation + 1) % 2 ^ 64 ∧
      ∃ s : Fin 4, s.val = 1 ∧
        (Examples.demoErased._indices s).generation = Examples.demo.map._generation :=
  erase_stamps_generation 64 Examples.demo.map Examples.demoErased ⟨1, 1⟩
    (Outcome.eq_ret_of_val _ (by decide!))

/-- C17: `is_key_valid(k)` is `true` exactly when `k.id < Capacity` and `k.generation`
equals `_indices[k.id].generation`; for `k.id >= Capacity` it is `false` whatever the
indirection table holds. It is a function of the state and returns no new state. -/
theorem is_key_valid_spec (m : SlotMap T cap) (k : Key) :
    (is_key_valid m k = true ↔
        ∃ h : k.id < cap, k.generation = (m._indices ⟨k.id, h⟩).generation) ∧
      (cap ≤ k.id → ∀ m2 : SlotMap T cap, is_key_valid m2 k = false) :=
  ⟨is_key_valid_iff m k, fun h m2 => is_key_valid_out_of_range m2 k h⟩

/-- C18: after `clear()`, `_freelist` is 0 and `_indices[i].id` is `i + 1` for every
`i < Capacity`, while `_generation`, every `_indices[i].generation`, `_data` and `_erase`
are what they were. -/
theorem clear_is_logical_reset (w : Nat) (m : SlotMap T cap) (hw : cap < 2 ^ w) :
    (clear w m)._freelist = 0 ∧
      (∀ i : Fin cap, ((clear w m)._indices i).id = i.val + 1) ∧
      (clear w m)._generation = m._generation ∧
      (∀ i : Fin cap, ((clear w m)._indices i).generation = (m._indices i).generation) ∧
      (clear w m)._data = m._data ∧ (clear w m)._erase = m._erase := by
  refine ⟨rfl, ?_, rfl, ?_, rfl, rfl⟩
  · intro i
    rw [clear_indices]
    have := i.isLt
    exact Nat.mod_eq_of_lt (by omega)
  · intro i
    rw [clear_indices]

theorem clear_is_logical_reset_witness :
    (clear 64 Examples.onePushed)._freelist = 0 ∧
      (∀ i : Fin 10, ((clear 64 Examples.onePushed)._indices i).id = i.val + 1) ∧
      (clear 64 Examples.onePushed)._generation = Examples.onePushed._generation ∧
      (∀ i : Fin 10, ((clear 64 Examples.onePushed)._indices i).generation =
        (Examples.onePushed._indices i).generation) ∧
      (clear 64 Examples.onePushed)._data = Examples.onePushed._data ∧
      (clear 64 Examples.onePushed)._erase = Examples.onePushed._erase :=
  clear_is_logical_reset 64 Examples.onePushed (by decide)

/-- C19: with an 8-bit index type and capacity 1, after the 128 rounds of `collideOps` the
key `{0, 0}`, whose `erase` returned `true` in the first round, is returned again by
`push_back(9)`; it is valid again and resolves to the new element 9. -/
theorem generation_wrap_collision :
    RunState.exec 8 Examples.collideOps (RunState.init Nat 1 8) =
        some Examples.collideState ∧
      Run Nat 1 8 Examples.collideState ∧
      Examples.collideState.bumps = 256 ∧
      (⟨0, 0⟩ : Key) ∈ Examples.collideState.erased ∧
      is_key_valid Examples.collideState.map ⟨0, 0⟩ = false ∧
      push_back 8 Examples.collideState.map 9 = .ret Examples.collideMap1 ⟨0, 0⟩ ∧
      is_key_valid Examples.collideMap1 ⟨0, 0⟩ = true ∧
      resolve Examples.collideMap1 ⟨0, 0⟩ = some 9 :=
  ⟨exec_eq_some_getD _ _ _ (by decide!), run_of_exec Examples.collideOps _ (by decide!),
    by decide!, by decide!, by decide!, Outcome.eq_ret_of_val _ (by decide!), by decide!,
    by decide!⟩

/-- C20: on a fresh map, consecutive successful `push_back` calls (at most `Capacity`)
return the keys `{0, 0}`, `{1, 1}`, ... in this order; and after an `erase(k)` that
returned `true`, a `push_back` throws or returns a key on slot `k.id`, and it does
return one when the state was reached by `push_back` and `erase` of returned keys
without the generation counter wrapping and `k` is one of the returned keys. -/
theorem slot_allocation_order [Inhabited T] {w : Nat} (hw : cap < 2 ^ w) :
    (∀ vs : List T, vs.length ≤ cap →
        ∃ a, pushAll w (fresh T cap w) vs =
          some (a, (List.range vs.length).map fun i => (⟨i, i⟩ : Key))) ∧
      (∀ (m m1 : SlotMap T cap) (k : Key) (v : T), erase w m k = .ret m1 true →
        push_back w m1 v = .thrown m1 ∨ ∃ m2 g, push_back w m1 v = .ret m2 ⟨k.id, g⟩) ∧
      (∀ (t : RunState T cap) (m1 : SlotMap T cap) (k : Key) (v : T),
        Run T cap w t → t.bumps < 2 ^ w → k ∈ t.issued → erase w t.map k = .ret m1 true →
        ∃ m2 g, push_back w m1 v = .ret m2 ⟨k.id, g⟩) := by
  refine ⟨?_, ?_, ?_⟩
  · intro vs hlen
    obtain ⟨a, ha⟩ := pushAll_packed hw vs (fresh T cap w) (packed_fresh w hw) rfl
      (by show 0 + vs.length ≤ cap; omega)
    refine ⟨a, ?_⟩
    rw [ha, List.range_eq_range']
    rfl
  · intro m m1 k v h
    exact push_back_after_erase v h
  · intro t m1 k v hr hb hk h
    have inv := run_inv hw hr hb
    rcases push_back_after_erase v h with hth | hret
    · exfalso
      obtain ⟨_, hcap⟩ := push_back_thrown_inv hth
      obtain ⟨_, _, hsz⟩ := erase_ret_true_freelist h
      have hv := erase_ret_true_valid h
      have hke : k ∉ t.erased := fun hin => by
        rw [inv.erased_stale k hin] at hv
        cases hv
      obtain ⟨s, _, ⟨d, _, hd2, _⟩, _⟩ := inv.live_key k hk hke
      have hle := inv.size_le
      rw [pred_wrap (by omega) (by omega)] at hsz
      omega
    · exact hret

theorem slot_allocation_order_witness :
    (∃ a, pushAll 64 (fresh Nat 4 64) [10, 20, 30] =
        some (a, [⟨0, 0⟩, ⟨1, 1⟩, ⟨2, 2⟩])) ∧
      ∃ m2 g, push_back 64 Examples.demoErased 50 = .ret m2 ⟨1, g⟩ := by
  obtain ⟨h1, _, h3⟩ := slot_allocation_order (T := Nat) (w := 64) (by decide : 4 < 2 ^ 64)
  have hb : Examples.demo.bumps < 2 ^ 64 := by decide!
  have hk : (⟨1, 1⟩ : Key) ∈ Examples.demo.issued := by decide!
  have he : erase 64 Examples.demo.map ⟨1, 1⟩ = .ret Examples.demoErased true :=
    Outcome.eq_ret_of_val _ (by decide!)
  exact ⟨h1 [10, 20, 30] (by decide), h3 Examples.demo Examples.demoErased ⟨1, 1⟩ 50
    demo_run hb hk he⟩

/-- C21: on a freshly constructed map of capacity 10 every key `{i, 0}` with `i < 10` is
accepted by `is_key_valid`, because the slot generations are value-initialised to 0; for
`{0, 0}` the call `erase` does not return `false`: it runs `_free_slot` with `_size = 0`
and is undefined. -/
theorem fresh_accepts_generation_zero :
    (∀ i : Fin 10, is_key_valid (fresh Nat 10 64) ⟨i.val, 0⟩ = true) ∧
      erase 64 (fresh Nat 10 64) ⟨0, 0⟩ ≠ .ret (fresh Nat 10 64) false ∧
      (erase 64 (fresh Nat 10 64) ⟨0, 0⟩).isUndefined = true := by
  refine ⟨by decide, ?_, by decide⟩
  intro h
  have e := Outcome.eq_undefined_of_isUndefined
    (o := erase 64 (fresh Nat 10 64) ⟨0, 0⟩) (by decide)
  rw [e] at h
  cases h

/-- C22 as stated (no bound on the generation counter) fails: with an 8-bit index type the
run `denseOps` reaches a state with `_size = 0` in which `{1, 1}`, a key returned by
`push_back`, is still accepted; `erase({1, 1})` computes `_size - 1` below 0 and reads
`_data[_size - 1]` outside the array. -/
theorem erase_out_of_bounds_after_wrap :
    RunState.exec 8 Examples.denseOps (RunState.init Nat 4 8) = some Examples.denseState ∧
      Run Nat 4 8 Examples.denseState ∧
      (⟨1, 1⟩ : Key) ∈ Examples.denseState.issued ∧
      is_key_valid Examples.denseState.map ⟨1, 1⟩ = true ∧
      Examples.denseState.map._size = 0 ∧
      erase 8 Examples.denseState.map ⟨1, 1⟩ = .undefined :=
  ⟨exec_eq_some_getD _ _ _ (by decide!), run_of_exec Examples.denseOps _ (by decide!),
    by decide!, by decide!, by decide!,
    Outcome.eq_undefined_of_isUndefined (by decide!)⟩

/-- C22: in a state reached from a fresh map by `push_back` and `erase` of returned keys
without the generation counter wrapping: when `_size < Capacity` the assertion
`_freelist < Capacity` holds and `push_back` is never undefined (it indexes with
`_freelist` and `_size`); `erase` of a returned key is never undefined, and when the key
is valid `_size - 1` does not underflow and the indices `_indices[k.id].id`, `_size - 1`
and `_erase[_size - 1]` are below `Capacity`. -/
theorem accesses_in_bounds [Inhabited T] {w : Nat} {t : RunState T cap}
    (hw : cap < 2 ^ w) (hr : Run T cap w t) (hb : t.bumps < 2 ^ w) :
    (t.map._size < cap → t.map._freelist < cap) ∧
      (∀ v : T, (∃ m1 k, push_back w t.map v = .ret m1 k) ∨
        push_back w t.map v = .thrown t.map) ∧
      (∀ k ∈ t.issued, ∃ m1 b, erase w t.map k = .ret m1 b) ∧
      (∀ k ∈ t.issued, is_key_valid t.map k = true →
        0 < t.map._size ∧
          ∃ s d L : Fin cap, s.val = k.id ∧ d.val = (t.map._indices s).id ∧
            L.val + 1 = t.map._size ∧ t.map._erase L < cap) := by
  have inv := run_inv hw hr hb
  have hfree : t.map._size < cap → t.map._freelist < cap := by
    intro hs
    obtain ⟨s, hs1, _⟩ := runInv_freelist_head inv hs
    rw [← hs1]
    exact s.isLt
  refine ⟨hfree, ?_, ?_, ?_⟩
  · intro v
    by_cases hs : t.map._size < cap
    · exact Or.inl ⟨_, _, push_back_eq_ret w t.map v hs (hfree hs)⟩
    · exact Or.inr (push_back_eq_thrown w t.map v (Nat.not_lt.mp hs))
  · intro k hk
    cases hv : is_key_valid t.map k with
    | false => exact ⟨t.map, false, erase_eq_ret_false w t.map k hv⟩
    | true =>
      obtain ⟨_, ⟨m1, he⟩, _⟩ := runInv_erase_issued (w := w) hw inv k hk hv
      exact ⟨m1, true, he⟩
  · intro k hk hv
    obtain ⟨h1, _, h3⟩ := runInv_erase_issued (w := w) hw inv k hk hv
    exact ⟨h1, h3⟩

theorem accesses_in_bounds_witness :
    (Examples.demo.map._size < 4 → Examples.demo.map._freelist < 4) ∧
      (∀ v : Nat, (∃ m1 k, push_back 64 Examples.demo.map v = .ret m1 k) ∨
        push_back 64 Examples.demo.map v = .thrown Examples.demo.map) ∧
      (∀ k ∈ Examples.demo.issued, ∃ m1 b, erase 64 Examples.demo.map k = .ret m1 b) ∧
      (∀ k ∈ Examples.demo.issued, is_key_valid Examples.demo.map k = true →
        0 < Examples.demo.map._size ∧
          ∃ s d L : Fin 4, s.val = k.id ∧ d.val = (Examples.demo.map._indices s).id ∧
            L.val + 1 = Examples.demo.map._size ∧ Examples.demo.map._erase L < 4) := by
  have hb : Examples.demo.bumps < 2 ^ 64 := by decide!
  exact accesses_in_bounds (t := Examples.demo) (by decide) demo_run hb

end SlotMap

/-- C23 as stated fails: for 24 bytes and 16 bytes per line both functions return 2, while
the expression of the comment, `(size * width - 1) / width`, is 23. -/
theorem display_lines_comment_differs :
    get_needed_display_lines 24 16 = some 2 ∧
      MemoryViewer._get_needed_display_lines 24 16 = some 2 ∧
      MemoryViewer.commentFormula 24 16 = some 23 :=
  ⟨by decide, by decide, by decide⟩

/-- C23: for every `size` and every `width > 0`, `get_needed_display_lines(size, width)`
(and the member of the same body), which returns `size / width` plus one when
`size % width != 0`, equals `(size + width - 1) / width` in integer division. -/
theorem display_lines_is_ceil_div (size width : Nat) (hw : 0 < width) :
    get_needed_display_lines size width = some ((size + width - 1) / width) ∧
      MemoryViewer._get_needed_display_lines size width =
        some ((size + width - 1) / width) := by
  have hne : width ≠ 0 := by omega
  rw [ceil_div_cases size width hw]
  constructor
  · simp only [get_needed_display_lines, if_neg hne]
    split <;> rfl
  · simp only [MemoryViewer._get_needed_display_lines, if_neg hne]
    split <;> rfl

theorem display_lines_is_ceil_div_witness :
    get_needed_display_lines 24 16 = some ((24 + 16 - 1) / 16) ∧
      MemoryViewer._get_needed_display_lines 24 16 = some ((24 + 16 - 1) / 16) :=
  display_lines_is_ceil_div 24 16 (by decide)

end vecs
